import Mathlib

/-!
Verification development for the generic relational storage layer and the
PostgreSQL advisory-lock manager of the `hello_grpc` repository.

The Python sources are shallowly embedded:

* Python strings are Lean `String`s; the loop-based Python string methods
  (`split`, `replace`, `endswith`, slicing) are re-implemented as structural
  recursions over the character list so that every definition evaluates
  inside the kernel.
* Byte strings (the UTF-8 encodings handled by `base64`) are `List (Fin 256)`.
* Machine integers are `Nat`/`Int` with explicit wrap arithmetic.
* Fallible code returns `Except`/`Option`; a function raising before any SQL
  statement is issued is modelled by returning `.error` instead of the
  statement it would otherwise hand to the cursor.
-/

/-! ## Python-style string helpers (character-list based, kernel reducible) -/

/-- Model of Python `s.split(sep)` for a one-character separator, on the
character list.  `"".split(".") == [""]` and `"a.".split(".") == ["a", ""]`. -/
def splitCh (sep : Char) : List Char → List (List Char)
  | [] => [[]]
  | c :: cs =>
    if c = sep then [] :: splitCh sep cs
    else
      match splitCh sep cs with
      | [] => [[c]]
      | g :: gs => (c :: g) :: gs

/-- Model of Python `s.split(sep)` for a one-character separator. -/
def pySplit (sep : Char) (s : String) : List String :=
  (splitCh sep s.data).map String.mk

/-- Model of Python `s.split(sep, 1)` for a one-character separator: `none`
when the separator does not occur, otherwise the parts before and after its
first occurrence. -/
def splitOnceCh (sep : Char) : List Char → Option (List Char × List Char)
  | [] => none
  | c :: cs =>
    if c = sep then some ([], cs)
    else (splitOnceCh sep cs).map (fun p => (c :: p.1, p.2))

/-- Model of Python `s.split(sep, 1)` on `String`. -/
def pySplitOnce (sep : Char) (s : String) : Option (String × String) :=
  (splitOnceCh sep s.data).map (fun p => (String.mk p.1, String.mk p.2))

/-- Model of Python `s.replace(a, b)` for one-character `a`, `b`. -/
def pyReplaceCh (a b : Char) (s : String) : String :=
  String.mk (s.data.map fun c => if c = a then b else c)

/-- Model of Python `s.endswith(suffix)`. -/
def pyEndsWith (sfx : String) (s : String) : Bool :=
  sfx.data.isSuffixOf s.data

/-- Model of Python `s[:-n]` (drop the last `n` characters). -/
def pyDropRight (n : Nat) (s : String) : String :=
  String.mk (s.data.take (s.data.length - n))

/-- Model of Python `sep.join(xs)`. -/
def pyJoin (sep : String) : List String → String
  | [] => ""
  | [x] => x
  | x :: y :: xs => x ++ sep ++ pyJoin sep (y :: xs)

/-- Split a character list on every (non-overlapping, left-to-right)
occurrence of the two-character pattern `"->"`; used to model Python's
`"->" in s` and `s.rsplit("->", 1)`. -/
def splitArrowCh : List Char → List (List Char)
  | [] => [[]]
  | '-' :: '>' :: cs => [] :: splitArrowCh cs
  | c :: cs =>
    match splitArrowCh cs with
    | [] => [[c]]
    | g :: gs => (c :: g) :: gs

/-- The pieces of `s` between occurrences of `"->"`. -/
def splitArrow (s : String) : List String :=
  (splitArrowCh s.data).map String.mk

/-! ## `to_base36` / `from_base36` (postgres.py lines 77-91)

`to_base36` repeatedly takes `n % 36` as an index into the digit string and
divides by 36; `from_base36` is Python `int(s, 36)`, modelled on the
alphanumeric strings the encoder can produce (digits `0-9`, letters, case
insensitive) as a left fold; invalid characters make the parse fail, which
models the `ValueError` that `int` raises. -/

/-- The digit alphabet `"0123456789abcdefghijklmnopqrstuvwxyz"` of
`to_base36`. -/
def b36digits : List Char := "0123456789abcdefghijklmnopqrstuvwxyz".data

/-- One digit of `to_base36`: `digits[n % 36]`. -/
def b36digitChar (d : Nat) : Char := b36digits.getD d '0'

/-- The digit-accumulation loop of `to_base36` (`while n: result =
digits[n % 36] + result; n //= 36`).  The first argument is structural fuel;
any fuel `≥ n` yields the loop's value (the quotient strictly decreases). -/
def to_base36Go : Nat → Nat → List Char → List Char
  | _, 0, acc => acc
  | 0, _ + 1, acc => acc
  | fuel + 1, n + 1, acc =>
    to_base36Go fuel ((n + 1) / 36) (b36digitChar ((n + 1) % 36) :: acc)

/-- `to_base36` from postgres.py: integer to base-36 string (`"0"` for 0). -/
def to_base36 (n : Nat) : String :=
  if n = 0 then "0" else String.mk (to_base36Go n n [])

/-- Numeric value of one base-36 character, as accepted by Python
`int(_, 36)`: `0-9`, `a-z`, `A-Z`. -/
def b36val? (c : Char) : Option Nat :=
  if '0' ≤ c ∧ c ≤ '9' then some (c.toNat - 48)
  else if 'a' ≤ c ∧ c ≤ 'z' then some (c.toNat - 97 + 10)
  else if 'A' ≤ c ∧ c ≤ 'Z' then some (c.toNat - 65 + 10)
  else none

/-- Digit-accumulating parse of a base-36 character list starting from
`acc`. -/
def valB36 (cs : List Char) (acc : Nat) : Option Nat :=
  cs.foldlM (fun a c => (b36val? c).map (fun d => a * 36 + d)) acc

/-- `from_base36` from postgres.py, i.e. Python `int(s, 36)`; `none` models
the `ValueError` on an empty or non-alphanumeric string. -/
def from_base36 (s : String) : Option Nat :=
  if s.data.isEmpty then none else valB36 s.data 0

/-! ## `base64.b64encode` / `base64.b64decode` (standard alphabet)

Used by `get_all_raw_paginate` for `id`-keyed pagination tokens.  Bytes are
`Fin 256`; the encoder processes three bytes into four alphabet characters,
padding the final group with `'='`. -/

/-- The standard base-64 alphabet. -/
def b64alphabet : List Char :=
  "ABCDEFGHIJKLMNOPQRSTUVWXYZabcdefghijklmnopqrstuvwxyz0123456789+/".data

/-- Character for a six-bit group. -/
def b64char (n : Nat) : Char := b64alphabet.getD n 'A'

/-- Index of a character in the base-64 alphabet (`none` for `'='` and any
foreign character). -/
def b64idx? (c : Char) : Option Nat := List.indexOf? c b64alphabet

/-- Build a byte from an arbitrary `Nat` (values are always < 256 here). -/
def mkByte (n : Nat) : Fin 256 := ⟨n % 256, Nat.mod_lt n (by omega)⟩

/-- The 3-bytes-to-4-characters loop of `base64.b64encode`. -/
def b64encodeGo : List (Fin 256) → List Char
  | [] => []
  | [b1] =>
    [b64char ((b1 : Nat) / 4), b64char ((b1 : Nat) % 4 * 16), '=', '=']
  | [b1, b2] =>
    [b64char ((b1 : Nat) / 4), b64char ((b1 : Nat) % 4 * 16 + (b2 : Nat) / 16),
     b64char ((b2 : Nat) % 16 * 4), '=']
  | b1 :: b2 :: b3 :: rest =>
    b64char ((b1 : Nat) / 4) :: b64char ((b1 : Nat) % 4 * 16 + (b2 : Nat) / 16) ::
    b64char ((b2 : Nat) % 16 * 4 + (b3 : Nat) / 64) :: b64char ((b3 : Nat) % 64) ::
    b64encodeGo rest

/-- `base64.b64encode(bs).decode("utf-8")`: bytes to base-64 text. -/
def b64encode (bs : List (Fin 256)) : String := String.mk (b64encodeGo bs)

/-- The 4-characters-to-bytes loop of `base64.b64decode`; `none` models the
`binascii.Error` on malformed input. -/
def b64decodeGo : List Char → Option (List (Fin 256))
  | [] => some []
  | c1 :: c2 :: c3 :: c4 :: rest => do
    let s1 ← b64idx? c1
    let s2 ← b64idx? c2
    if c3 = '=' ∧ c4 = '=' ∧ rest = [] then
      some [mkByte (s1 * 4 + s2 / 16)]
    else do
      let s3 ← b64idx? c3
      if c4 = '=' ∧ rest = [] then
        some [mkByte (s1 * 4 + s2 / 16), mkByte (s2 % 16 * 16 + s3 / 4)]
      else do
        let s4 ← b64idx? c4
        let tail ← b64decodeGo rest
        some (mkByte (s1 * 4 + s2 / 16) :: mkByte (s2 % 16 * 16 + s3 / 4) ::
              mkByte (s3 % 4 * 64 + s4) :: tail)
  | _ => none

/-- `base64.b64decode(s)`: base-64 text back to bytes. -/
def b64decode (s : String) : Option (List (Fin 256)) := b64decodeGo s.data

/-! ## The `retry` decorator (database.py lines 22-42)

`retry` wraps an operation in `while attempts < max_attempts`, incrementing
`attempts`, calling the function, and on *any* exception either re-raising
(when `attempts >= max_attempts`) or sleeping one randomized backoff and
looping.  The model records the exception/value outcome, how many times the
wrapped function was invoked, and how many backoff sleeps happened; the
wrapped function is a map from the 0-based call index to its outcome, so a
deterministic failure is the constant function. -/

structure RetryOutcome (E A : Type) where
  result : Option (Except E A)
  attempts : Nat
  sleeps : Nat
deriving Repr

/-- The `while attempts < max_attempts` loop; the fuel argument is
`max_attempts - attempts`, so `fuel = 0` means the loop condition is false
(Python then falls off the decorator and returns `None`). -/
def retryGo (f : Nat → Except E A) : Nat → Nat → Nat → RetryOutcome E A
  | 0, attempts, sleeps => ⟨none, attempts, sleeps⟩
  | fuel + 1, attempts, sleeps =>
    match f attempts with
    | .ok a => ⟨some (.ok a), attempts + 1, sleeps⟩
    | .error e =>
      if fuel = 0 then ⟨some (.error e), attempts + 1, sleeps⟩
      else retryGo f fuel (attempts + 1) (sleeps + 1)

/-- The `retry(max_attempts)` decorator applied to an operation. -/
def retry (maxAttempts : Nat) (f : Nat → Except E A) : RetryOutcome E A :=
  retryGo f maxAttempts 0 0

/-! ## `DatabaseStore` query builders (database.py)

Values bound into `%s` placeholders.  `pyNone` is Python `None`. -/

inductive PyVal
  | pyNone
  | pyStr (s : String)
  | pyInt (n : Nat)
deriving DecidableEq, Repr

/-- `AdditionalFilter` as consumed by `DatabaseStore.get_all`/`get_all_raw`:
a raw statement plus its parameter *values* (the code appends
`additional_filter.params.values()` positionally). -/
structure DBAdditionalFilter where
  statement : String
  params : List PyVal
deriving DecidableEq, Repr

namespace DatabaseStore

/-- The `for key, value in filters.items(): if value is not None: ...` loop
shared by `get_all`, `get_all_raw`, `count` and `delete`: one `key = %s`
clause and one positional parameter per non-`None` entry, in map order. -/
def whereParts (filters : List (String × PyVal)) : List String × List PyVal :=
  filters.foldl
    (fun acc kv =>
      if kv.2 ≠ PyVal.pyNone then (acc.1 ++ [kv.1 ++ " = %s"], acc.2 ++ [kv.2])
      else acc)
    ([], [])

/-- Query and parameters built by `DatabaseStore.get_all`
(database.py lines 278-321). -/
def get_all (fq_table_name : String) (filters : List (String × PyVal))
    (additional_filters : List DBAdditionalFilter) (order_by : String)
    (order_by_asc : Bool) (limit : Option Nat) : String × List PyVal :=
  let wp := whereParts filters
  let clauses := wp.1 ++ additional_filters.map (·.statement)
  let params := wp.2 ++ additional_filters.flatMap (·.params)
  let q := "SELECT * FROM " ++ fq_table_name
  let q := if clauses.isEmpty then q else q ++ " WHERE " ++ pyJoin " AND " clauses
  let q := q ++ " ORDER BY " ++ order_by ++ " " ++ (if order_by_asc then "ASC" else "DESC")
  match limit with
  | some l => if l ≠ 0 then (q ++ " LIMIT %s", params ++ [PyVal.pyInt l]) else (q, params)
  | none => (q, params)

/-- Query and parameters built by `DatabaseStore.get_all_raw`
(database.py lines 335-381); an empty `selected_columns` list stands for
Python `None`/`[]`, both of which select `*`. -/
def get_all_raw (fq_table_name : String) (filters : List (String × PyVal))
    (additional_filters : List DBAdditionalFilter) (selected_columns : List String)
    (order_by : String) (order_by_asc : Bool) (limit : Option Nat) :
    String × List PyVal :=
  let columns := if selected_columns.isEmpty then "*" else pyJoin ", " selected_columns
  let wp := whereParts filters
  let clauses := wp.1 ++ additional_filters.map (·.statement)
  let params := wp.2 ++ additional_filters.flatMap (·.params)
  let q := "SELECT " ++ columns ++ " FROM " ++ fq_table_name
  let q := if clauses.isEmpty then q else q ++ " WHERE " ++ pyJoin " AND " clauses
  let q := q ++ " ORDER BY " ++ order_by ++ " " ++ (if order_by_asc then "ASC" else "DESC")
  match limit with
  | some l => if l ≠ 0 then (q ++ " LIMIT %s", params ++ [PyVal.pyInt l]) else (q, params)
  | none => (q, params)

/-- Query and parameters built by `DatabaseStore.count`
(database.py lines 393-412). -/
def count (fq_table_name : String) (filters : List (String × PyVal)) :
    String × List PyVal :=
  let wp := whereParts filters
  let q := "SELECT COUNT(*) FROM " ++ fq_table_name
  (if wp.1.isEmpty then q else q ++ " WHERE " ++ pyJoin " AND " wp.1, wp.2)

/-- `DatabaseStore.delete` (database.py lines 424-456) up to the point where
the built statement would be handed to `cursor.execute`: `.error` models a
`ValueError` raised *before* any statement is executed (an `.ok` value is
exactly the statement that then gets executed and committed). -/
def delete (fq_table_name : String) (filters : List (String × PyVal)) :
    Except String (String × List PyVal) :=
  if filters.isEmpty then
    .error "Delete requires filters to prevent accidental full table deletion"
  else
    let wp := whereParts filters
    if wp.1.isEmpty then .error "No valid filters provided for delete"
    else .ok ("DELETE FROM " ++ fq_table_name ++ " WHERE " ++ pyJoin " AND " wp.1, wp.2)

end DatabaseStore

/-! ## The `StatementExecutor` filter compiler (postgres.py `_build_filter`)

Filter values: `fNull` is Python `None` (emits `IS NULL`), `fList` a Python
list (emits `IN (...)`), `fVal` a scalar (emits equality; the code passes it
through `str(...)`).  `Serializable`/`dict` values are outside the modelled
value universe (the claims under verification do not involve them). -/

inductive FLeaf
  | fStr (s : String)
  | fInt (n : Nat)
deriving DecidableEq, Repr

/-- Python `str(value)` on the modelled scalar values. -/
def strOfLeaf : FLeaf → String
  | .fStr s => s
  | .fInt n => toString n

inductive FVal
  | fNull
  | fList (xs : List FLeaf)
  | fVal (x : FLeaf)
deriving DecidableEq, Repr

/-- `AdditionalFilter` from models.py: a raw statement plus named
parameters. -/
structure AdditionalFilter where
  statement : String
  params : List (String × FLeaf)
deriving DecidableEq, Repr

/-- Python dict assignment `d[k] = v`: replaces the value in place when the
key exists, appends otherwise. -/
def dictSet (d : List (String × α)) (k : String) (v : α) : List (String × α) :=
  if d.any (fun kv => kv.1 = k) then
    d.map (fun kv => if kv.1 = k then (k, v) else kv)
  else d ++ [(k, v)]

/-- Python `d.update(e)`. -/
def dictUpdate (d e : List (String × α)) : List (String × α) :=
  e.foldl (fun acc kv => dictSet acc kv.1 kv.2) d

namespace StatementExecutor

/-- `param_key = key.replace(":", "_").replace(".", "_")`. -/
def paramKeyOf (key : String) : String :=
  pyReplaceCh '.' '_' (pyReplaceCh ':' '_' key)

/-- The JSON-path rewriting of a filter key: a key `"column:path.to.leaf"`
becomes `column->'path'->'to'->'leaf'`; a key without `":"` is unchanged. -/
def sanitizedKeyOf (key : String) : String :=
  match pySplitOnce ':' key with
  | some cp =>
    cp.1 ++ "->" ++ pyJoin "->" ((pySplit '.' cp.2).map (fun e => "'" ++ e ++ "'"))
  | none => key

/-- Equality clauses extract the leaf as text: the last `->` of the
sanitized key becomes `->>` (Python `sanitized_key.rsplit("->", 1)`),
applied only when the sanitized key contains `"->"`. -/
def textExtract (sk : String) : String :=
  let parts := splitArrow sk
  if parts.length > 1 then
    pyJoin "->" parts.dropLast ++ "->>" ++ parts.getLastD ""
  else sk

/-- One iteration of the `for key in filters:` loop of `_build_filter`
(postgres.py lines 652-689), transforming the `(clauses, params)`
accumulator. -/
def filterStep (acc : List String × List (String × FLeaf)) (kv : String × FVal) :
    List String × List (String × FLeaf) :=
  let paramKey := paramKeyOf kv.1
  let sk := sanitizedKeyOf kv.1
  match kv.2 with
  | .fNull => (acc.1 ++ [sk ++ " IS NULL"], acc.2)
  | .fList xs =>
    let placeholders :=
      pyJoin ", " ((List.range xs.length).map
        (fun i => "%(" ++ paramKey ++ "_" ++ toString i ++ ")s"))
    let params :=
      xs.enum.foldl (fun d p => dictSet d (paramKey ++ "_" ++ toString p.1) p.2) acc.2
    (acc.1 ++ [sk ++ " IN (" ++ placeholders ++ ")"], params)
  | .fVal x =>
    let params := dictSet acc.2 paramKey (.fStr (strOfLeaf x))
    (acc.1 ++ [textExtract sk ++ " = %(" ++ paramKey ++ ")s"], params)

/-- `_build_filter` (postgres.py lines 639-697): basic filters first, then
additional filters appended clause-by-clause with their params merged into
the dict; result is the `WHERE ...` clause (empty string when no clauses)
and the named parameters. -/
def _build_filter (filters : List (String × FVal))
    (additional_filters : List AdditionalFilter) :
    String × List (String × FLeaf) :=
  let basic := filters.foldl filterStep ([], [])
  let full := additional_filters.foldl
    (fun acc af => (acc.1 ++ [af.statement], dictUpdate acc.2 af.params)) basic
  (if full.1.isEmpty then "" else "WHERE " ++ pyJoin " AND " full.1, full.2)

/-- `_build_delete_statement` (postgres.py lines 594-608): rejects a delete
with neither basic nor additional filters before anything reaches a cursor;
otherwise returns the statement that `delete` would execute. -/
def _build_delete_statement (fq_table_name : String)
    (filters : List (String × FVal)) (additional_filters : List AdditionalFilter) :
    Except String (String × List (String × FLeaf)) :=
  if filters.isEmpty ∧ additional_filters.isEmpty then
    .error "No filters specified for delete op"
  else
    let fc := _build_filter filters additional_filters
    .ok ("DELETE FROM " ++ fq_table_name ++ " " ++ fc.1, fc.2)

/-- Specification-side restatement of the clause `_build_filter` emits for
one basic filter, following the spec's words: `IS NULL` for a null value,
`IN (...)` with one named placeholder per element for a sequence, an
equality comparison otherwise. -/
def fragmentSpec (kv : String × FVal) : String :=
  match kv.2 with
  | .fNull => sanitizedKeyOf kv.1 ++ " IS NULL"
  | .fList xs =>
    sanitizedKeyOf kv.1 ++ " IN (" ++
      pyJoin ", " ((List.range xs.length).map
        (fun i => "%(" ++ paramKeyOf kv.1 ++ "_" ++ toString i ++ ")s")) ++ ")"
  | .fVal _ =>
    textExtract (sanitizedKeyOf kv.1) ++ " = %(" ++ paramKeyOf kv.1 ++ ")s"

/-- Specification-side restatement of the named parameters one basic filter
contributes: the name is the key with path separators replaced by
underscores, sequence elements additionally suffixed with their index (and
bound raw), scalars bound as their string rendering. -/
def paramsSpec (kv : String × FVal) : List (String × FLeaf) :=
  match kv.2 with
  | .fNull => []
  | .fList xs => xs.enum.map (fun p => (paramKeyOf kv.1 ++ "_" ++ toString p.1, p.2))
  | .fVal x => [(paramKeyOf kv.1, .fStr (strOfLeaf x))]

/-- Specification-side assembly of the WHERE clause: all clause fragments
joined by `AND` (empty string when there are none). -/
def whereOf (clauses : List String) : String :=
  if clauses.isEmpty then "" else "WHERE " ++ pyJoin " AND " clauses

end StatementExecutor

/-! ## The JSON update-clause tree (postgres.py `_build_update_clause_tree`)

`UpdateNode` mirrors the Python class: a full path from the column root, an
optional update mode (`None` on internal nodes), an optional value (`None`
on internal nodes), and children.  The Python code mutates a tree while
walking the dot-separated parts of each update path; the model threads the
tree functionally through `insertSegs`, replacing the visited child.  An
`.error` result models the `ValueError("Conflicting update path: ...")`
raised during the build, i.e. before any SQL statement is synthesized or
executed. -/

inductive UMode
  | update
  | append
deriving DecidableEq, Repr

inductive UpdateNode (V : Type) : Type where
  | mk (path : List String) (update_mode : Option UMode) (value : Option V)
       (children : List (UpdateNode V))

def UpdateNode.path : UpdateNode V → List String
  | .mk p _ _ _ => p

def UpdateNode.update_mode : UpdateNode V → Option UMode
  | .mk _ m _ _ => m

def UpdateNode.value : UpdateNode V → Option V
  | .mk _ _ v _ => v

def UpdateNode.children : UpdateNode V → List (UpdateNode V)
  | .mk _ _ _ c => c

/-- Python `node.path[-1]` (node paths are never empty: the root path is
`[col_name]` and children extend their parent's path). -/
def UpdateNode.lastSeg (n : UpdateNode V) : String := n.path.getLastD ""

/-- Mode and key of the final path part: `part.endswith("@append")` marks
append mode and the key is `part.rsplit("@", 1)[0]` (for a part ending in
`"@append"` that is exactly the part without its last 7 characters). -/
def parseLeaf (part : String) : String × UMode :=
  if pyEndsWith "@append" part then (pyDropRight 7 part, .append) else (part, .update)

/-- The `for child in current_node.children: if child.path[-1] == ...`
first-match lookup. -/
def findChild (children : List (UpdateNode V)) (seg : String) : Option (UpdateNode V) :=
  children.find? (fun c => c.lastSeg = seg)

/-- Replace the first child with the given last path segment (the Python
code mutates that child in place). -/
def replaceChild (children : List (UpdateNode V)) (seg : String) (c' : UpdateNode V) :
    List (UpdateNode V) :=
  match children with
  | [] => []
  | c :: cs => if c.lastSeg = seg then c' :: cs else c :: replaceChild cs seg c'

/-- The `for i, part in enumerate(parts)` walk of
`_build_update_clause_tree` for one update path, inserting the path's nodes
under `node`.  `.error` is the `ValueError("Conflicting update path")`
raised when a node with the same last segment exists with a different
update mode or value. -/
def insertSegs [DecidableEq V] (node : UpdateNode V) :
    List String → V → Except String (UpdateNode V)
  | [], _ => .ok node
  | [last], value =>
    let km := parseLeaf last
    match findChild node.children km.1 with
    | some child =>
      if child.update_mode ≠ some km.2 ∨ child.value ≠ some value then
        .error "Conflicting update path"
      else .ok node
    | none =>
      .ok (.mk node.path node.update_mode node.value
            (node.children ++ [.mk (node.path ++ [km.1]) (some km.2) (some value) []]))
  | part :: seg2 :: rest, value =>
    match findChild node.children part with
    | some child =>
      if child.update_mode ≠ none ∨ child.value ≠ none then
        .error "Conflicting update path"
      else
        match insertSegs child (seg2 :: rest) value with
        | .error e => .error e
        | .ok child' =>
          .ok (.mk node.path node.update_mode node.value
                (replaceChild node.children part child'))
    | none =>
      match insertSegs (.mk (node.path ++ [part]) none none []) (seg2 :: rest) value with
      | .error e => .error e
      | .ok child' =>
        .ok (.mk node.path node.update_mode node.value (node.children ++ [child']))

/-- The JSON branch of `_build_update_clause_tree`: start from the bare
column root and insert every `path -> value` entry (dict iteration order =
insertion order, modelled by the association list's order). -/
def jsonTreeFold [DecidableEq V] (col_name : String) (path_to_val : List (String × V)) :
    Except String (UpdateNode V) :=
  path_to_val.foldlM (fun t kv => insertSegs t (pySplit '.' kv.1) kv.2)
    (.mk [col_name] none none [])

/-- `_build_update_clause_tree` (postgres.py lines 772-820): a single entry
with an empty JSON path degenerates to a plain column-replacement leaf;
everything else builds the JSON tree. -/
def _build_update_clause_tree [DecidableEq V] (col_name : String)
    (path_to_val : List (String × V)) : Except String (UpdateNode V) :=
  match path_to_val with
  | [(key, val)] =>
    if key = "" then .ok (.mk [col_name] (some .update) (some val) [])
    else jsonTreeFold col_name [(key, val)]
  | l => jsonTreeFold col_name l

/-- The tree `t` holds a leaf for the path `segs ++ [key]`: following
`segs` through (internal, i.e. mode-less and value-less) children ends in a
child for `key` carrying exactly mode `m` and value `v`. -/
def Contains : UpdateNode V → List String → String → UMode → V → Prop
  | t, [], key, m, v =>
    ∃ c, findChild t.children key = some c ∧
      c.update_mode = some m ∧ c.value = some v
  | t, s :: segs, key, m, v =>
    ∃ c, findChild t.children s = some c ∧
      c.update_mode = none ∧ c.value = none ∧ Contains c segs key m v

/-! ## The PostgreSQL lock manager (lock_manager.py)

State of one `PostgresLockManager` instance: the shared tracked connection
(`some id` when a connection object is held, with `id` a freshness counter
standing for the identity of the pooled connection), and the
`_acquired_lock_keys` set.  The claims under verification concern normal
operation, so the failure/reconnect path (`"connection already closed"`)
and the server side of `pg_advisory_lock` are not part of the state; the
outcome of `pg_try_advisory_lock` is an oracle parameter of the
non-blocking operation. -/

structure LMState where
  connection : Option Nat
  acquiredLockKeys : Finset Int
  nextConnId : Nat
deriving DecidableEq

def LMState.init : LMState := ⟨none, ∅, 0⟩

/-- `_get_connection`: reuse the tracked connection or fetch a fresh one
from the pool. -/
def _get_connection (st : LMState) : Nat × LMState :=
  match st.connection with
  | some c => (c, st)
  | none => (st.nextConnId, ⟨some st.nextConnId, st.acquiredLockKeys, st.nextConnId + 1⟩)

/-- `_get_connection_for_lock` (lock_manager.py lines 122-126): track the
key, then reuse/open the shared connection. -/
def _get_connection_for_lock (key : Int) (st : LMState) : Nat × LMState :=
  _get_connection ⟨st.connection, insert key st.acquiredLockKeys, st.nextConnId⟩

/-- `_release_connection_for_lock` (lock_manager.py lines 128-134): untrack
the key; close and drop the connection when no tracked keys remain. -/
def _release_connection_for_lock (key : Int) (st : LMState) : LMState :=
  let keys := st.acquiredLockKeys.erase key
  if keys = ∅ ∧ st.connection.isSome then ⟨none, keys, st.nextConnId⟩
  else ⟨st.connection, keys, st.nextConnId⟩

inductive LMOp
  | acquire (key : Int)
  | acquireNonBlocking (key : Int) (granted : Bool)
  | release (key : Int)
deriving DecidableEq, Repr

/-- One public lock-manager operation (lock_manager.py lines 136-201):
`acquire` tracks and blocks until granted; `acquire_non_blocking` tracks,
tries once, and untracks (possibly closing the idle connection) when the
database reports the lock as already held; `release` re-tracks the key to
obtain the connection, unlocks, then untracks. -/
def lmStep : LMOp → LMState → LMState
  | .acquire k, st => (_get_connection_for_lock k st).2
  | .acquireNonBlocking k granted, st =>
    let st' := (_get_connection_for_lock k st).2
    if granted then st' else _release_connection_for_lock k st'
  | .release k, st => _release_connection_for_lock k (_get_connection_for_lock k st).2

/-- A fresh manager driven through a sequence of operations. -/
def lmRun (ops : List LMOp) : LMState :=
  ops.foldl (fun st op => lmStep op st) LMState.init

/-- The connection-lifecycle invariant of the lock manager: a connection is
held if and only if the tracked held-lock set is non-empty. -/
def lmInv (st : LMState) : Prop :=
  st.connection.isSome = true ↔ st.acquiredLockKeys ≠ ∅

/-! ## Lock-key derivation (lock_manager.py `_string_to_lock_key`)

`hashlib.md5(name).hexdigest()` yields 32 hexadecimal characters; the code
takes `int(hexdigest[:16], 16)` and wraps it into the signed 64-bit range.
The md5 digest itself is library code outside the repository; it enters the
model as the abstract hex-digit list, so the modelled function is the
repository's own arithmetic on top of it. -/

/-- Value of a hex-digit string (most significant first). -/
def hexVal (ds : List (Fin 16)) : Nat :=
  ds.foldl (fun acc d => acc * 16 + (d : Nat)) 0

/-- `_string_to_lock_key` (lock_manager.py lines 105-114) applied to the
name's md5 hex digest: the first 16 hex digits as an unsigned 64-bit value,
wrapped through two's complement into the signed 64-bit range. -/
def _string_to_lock_key (digest : List (Fin 16)) : Int :=
  let lock_key_unsigned := hexVal (digest.take 16)
  if lock_key_unsigned ≥ 2 ^ 63 then (lock_key_unsigned : Int) - 2 ^ 64
  else (lock_key_unsigned : Int)

/-! ## The `StatementExecutor` read path (postgres.py `get_all_raw` /
`get_all_raw_paginate`)

Rows carry the three mandatory `Storable` columns.  Timestamps are
microseconds since the epoch (`datetime` resolution); ids are the UTF-8
bytes of the id string.  The database side of a query is modelled
semantically: a WHERE predicate is a `Row → Bool`, `ORDER BY` is a sort by
the named column (byte-wise/lexicographic for `id`, matching text
comparison under C collation), and the `OFFSET ... FETCH NEXT ... ROWS
ONLY` windows of `get_all_raw`'s accumulation loop are windows into the
sorted match list.  Ties in the sort key are broken deterministically by
the sort; the theorems below only rely on orderings that SQL guarantees
(all rows involved have pairwise distinct sort keys). -/

inductive DbErr
  | valueErr (msg : String)
  | assertionErr (msg : String)
  | dbErr (msg : String)
deriving DecidableEq, Repr

def CREATED_TS_FIELD : String := "created_ts"
def ID_FIELD : String := "id"
def LAST_UPDATED_TS_FIELD : String := "last_updated_ts"

structure Row where
  id : List (Fin 256)
  created_ts : Nat
  last_updated_ts : Nat
deriving DecidableEq, Repr

/-- The columns every modelled table has. -/
def knownColumn (f : String) : Bool :=
  f == ID_FIELD || f == CREATED_TS_FIELD || f == LAST_UPDATED_TS_FIELD

/-- Strict comparison of two rows on a named column. -/
def fieldLtb (f : String) (r1 r2 : Row) : Bool :=
  if f = CREATED_TS_FIELD then decide (r1.created_ts < r2.created_ts)
  else if f = ID_FIELD then decide (r1.id < r2.id)
  else decide (r1.last_updated_ts < r2.last_updated_ts)

/-- The `ORDER BY f ASC|DESC` ordering as a total preorder. -/
def pageLe (f : String) (asc : Bool) (a b : Row) : Bool :=
  if asc then !fieldLtb f b a else !fieldLtb f a b

def rowOrder (f : String) (asc : Bool) : Row → Row → Prop :=
  fun a b => pageLe f asc a b = true

instance (f : String) (asc : Bool) : DecidableRel (rowOrder f asc) :=
  fun a b => inferInstanceAs (Decidable (pageLe f asc a b = true))

/-- `ORDER BY` of the modelled database. -/
def sortRows (f : String) (asc : Bool) (l : List Row) : List Row :=
  List.insertionSort (rowOrder f asc) l

/-- One `OFFSET offset ROWS FETCH NEXT batch ROWS ONLY` window. -/
def fetchWindow (rows : List Row) (offset batch : Nat) : List Row :=
  (rows.drop offset).take batch

/-- The `while True:` accumulation loop of `get_all_raw` (postgres.py lines
421-447): fetch a window, stop on an empty or short window, otherwise
advance the offset and shrink the batch to the rows still wanted.  The fuel
argument only bounds the recursion; `sorted.length + 1` is always enough
(each continuing iteration advances `offset` by `batch ≥ 1`). -/
def get_all_rawGo (sorted : List Row) (limit : Nat) :
    Nat → List Row → Nat → Nat → List Row
  | 0, out, _, _ => out
  | fuel + 1, out, offset, batch =>
    let results := fetchWindow sorted offset batch
    if results.isEmpty then out
    else
      let out' := out ++ results
      if results.length < batch then out'
      else get_all_rawGo sorted limit fuel out' (offset + batch) (min batch (limit - out'.length))

/-- `get_all_raw` (postgres.py lines 396-448) against the modelled
database: filter, sort by the ordering column, then run the windowed
accumulation loop with the initial batch `min(10000, limit)`.  An unknown
`ORDER BY` column is a database error. -/
def get_all_raw (table : List Row) (filters : List (Row → Bool))
    (order_by : String) (order_by_asc : Bool) (limit : Nat) :
    Except DbErr (List Row) :=
  if !knownColumn order_by then .error (.dbErr ("UndefinedColumn: " ++ order_by))
  else
    let matching := table.filter (fun r => filters.all (fun f => f r))
    let sorted := sortRows order_by order_by_asc matching
    .ok (get_all_rawGo sorted limit (sorted.length + 1) [] 0 (min 10000 limit))

/-- Python truthiness of the `pagination_token` argument (`None` and `""`
are both falsy). -/
def tokPresent : Option String → Bool
  | none => false
  | some s => !(s == "")

/-- Token handling of `get_all_raw_paginate` (postgres.py lines 496-521):
the strict-bound filter added for a truthy incoming token.  For
`created_ts` the token decodes as base-36 milliseconds and the bound is
`millis * 1000` microseconds; for `id` it decodes as base-64 bytes; any
other field raises `ValueError` at once (a decode failure is the
`ValueError`/`binascii.Error` of the decoder). -/
def effectiveFilters (filters : List (Row → Bool)) (pagination_token : Option String)
    (pagination_field : String) : Except DbErr (List (Row → Bool)) :=
  if tokPresent pagination_token then
    let tok := pagination_token.getD ""
    if pagination_field = CREATED_TS_FIELD then
      match from_base36 tok with
      | some millis =>
        Except.ok (filters ++ [fun r : Row => decide (r.created_ts < millis * 1000)])
      | none => Except.error (.valueErr "invalid literal for int() with base 36")
    else if pagination_field = ID_FIELD then
      match b64decode tok with
      | some bs => Except.ok (filters ++ [fun r : Row => decide (r.id < bs)])
      | none => Except.error (.valueErr "Invalid base64-encoded string")
    else Except.error (.valueErr ("Unsupported pagination field: " ++ pagination_field))
  else Except.ok filters

/-- `get_all_raw_paginate` (postgres.py lines 482-549): add the decoded
token bound (if any), fetch up to `limit` rows ordered by the pagination
field, and derive the next token — a short page ends the scan with token
`None`; a full page encodes the last row's sort key (`created_ts`: base-36
of `int(ts.timestamp() * 1000)`, i.e. microseconds floored to
milliseconds; `id`: base-64 of the id, after the falsy-id assertion); any
other pagination field raises `ValueError` only at this point. -/
def get_all_raw_paginate (table : List Row) (filters : List (Row → Bool))
    (pagination_token : Option String) (limit : Nat) (pagination_field : String)
    (pagination_order_by_asc : Bool) : Except DbErr (List Row × Option String) :=
  match effectiveFilters filters pagination_token pagination_field with
  | .error e => .error e
  | .ok effFilters =>
    match get_all_raw table effFilters pagination_field pagination_order_by_asc limit with
    | .error e => .error e
    | .ok raw =>
      if raw.length < limit then .ok (raw, none)
      else if pagination_field = CREATED_TS_FIELD then
        match raw.getLast? with
        | none => .error (.dbErr "IndexError: list index out of range")
        | some last => .ok (raw, some (to_base36 (last.created_ts / 1000)))
      else if pagination_field = ID_FIELD then
        match raw.getLast? with
        | none => .error (.dbErr "IndexError: list index out of range")
        | some last =>
          if last.id = [] then .error (.assertionErr "BUG: id not found in the last entry")
          else .ok (raw, some (b64encode last.id))
      else .error (.valueErr ("Unsupported pagination field: " ++ pagination_field))

/-- The paginated-scan protocol of claim P4: call `get_all_raw_paginate`,
feed each returned token into the next call, stop on token `None`,
concatenating the pages.  Fuel bounds the recursion; `table.length + 1`
calls always suffice when each page is non-empty. -/
def paginateAllGo (table : List Row) (filters : List (Row → Bool)) (limit : Nat)
    (field : String) (asc : Bool) : Nat → Option String → Except DbErr (List Row)
  | 0, _ => .error (.dbErr "pagination driver out of fuel")
  | fuel + 1, tok =>
    match get_all_raw_paginate table filters tok limit field asc with
    | .error e => .error e
    | .ok (page, none) => .ok page
    | .ok (page, some t) =>
      match paginateAllGo table filters limit field asc fuel (some t) with
      | .error e => .error e
      | .ok rest => .ok (page ++ rest)

/-- Full paginated scan starting from no token. -/
def paginateAll (table : List Row) (filters : List (Row → Bool)) (limit : Nat)
    (field : String) (asc : Bool) : Except DbErr (List Row) :=
  paginateAllGo table filters limit field asc (table.length + 1) none

/-! ## Theorems -/

/-! ### The retry decorator retries every exception (claim C1) -/

/-- When every call of the wrapped operation raises, the retry loop runs all
its attempts, sleeping between consecutive ones, and only then re-raises the
last error. -/
theorem retryGo_error {E A : Type} (e : E) (f : Nat → Except E A)
    (h : ∀ i, f i = .error e) :
    ∀ fuel attempts sleeps, 0 < fuel →
    retryGo f fuel attempts sleeps =
      ⟨some (.error e), attempts + fuel, sleeps + fuel - 1⟩ := by
  intro fuel
  induction fuel with
  | zero => intro _ _ h0; omega
  | succ m ih =>
    intro attempts sleeps _
    rcases Nat.eq_zero_or_pos m with hm | hm
    · subst hm
      simp [retryGo, h attempts]
    · have hm' : m ≠ 0 := Nat.pos_iff_ne_zero.mp hm
      simp only [retryGo, h attempts, hm', if_false]
      rw [ih (attempts + 1) (sleeps + 1) hm]
      simp only [RetryOutcome.mk.injEq]
      refine ⟨trivial, by omega, by omega⟩

/-- C1, counterexample: an unfiltered `DatabaseStore.delete` raises a
validation `ValueError`, yet the `retry()` wrapper catches it like any other
exception: the operation is attempted 3 times with 2 backoff sleeps before
the error surfaces — not surfaced immediately on the first attempt with no
retries and no sleeps, as the claim states. -/
theorem claim_C1_counterexample :
    (retry 3 (fun _ => DatabaseStore.delete "test.grpc_requests" [])).attempts = 3 ∧
    (retry 3 (fun _ => DatabaseStore.delete "test.grpc_requests" [])).sleeps = 2 ∧
    (retry 3 (fun _ => DatabaseStore.delete "test.grpc_requests" [])).result =
      some (.error "Delete requires filters to prevent accidental full table deletion") ∧
    ¬ ((retry 3 (fun _ => DatabaseStore.delete "test.grpc_requests" [])).attempts = 1 ∧
       (retry 3 (fun _ => DatabaseStore.delete "test.grpc_requests" [])).sleeps = 0) := by
  have h3 : (retry 3 (fun _ => DatabaseStore.delete "test.grpc_requests" [])).attempts = 3 := rfl
  refine ⟨h3, rfl, rfl, fun hc => ?_⟩
  have h1 := hc.1
  omega

/-- C1, amended: every operation failure — validation errors from caller
misuse included — is retried by the Generic Object Store's `retry()` policy:
with the default 3 attempts, an operation that deterministically raises is
invoked exactly 3 times with 2 backoff sleeps, and only then is the error
re-raised to the caller; no error is surfaced immediately on the first
attempt. -/
theorem claim_C1 {E A : Type} (e : E) (f : Nat → Except E A)
    (h : ∀ i, f i = .error e) :
    retry 3 f = ⟨some (.error e), 3, 2⟩ := by
  have := retryGo_error e f h 3 0 0 (by omega)
  simpa [retry] using this

/-- Witness for C1 at the unfiltered-delete validation error. -/
theorem claim_C1_witness :
    retry 3 (fun _ => DatabaseStore.delete "test.grpc_requests" []) =
      ⟨some (.error "Delete requires filters to prevent accidental full table deletion"),
       3, 2⟩ :=
  claim_C1 _ _ (fun _ => rfl)

/-! ### The delete guards (claim C4) -/

/-- C4: a delete with no basic filters and no additional filters raises a
validation error in both layers — `StatementExecutor._build_delete_statement`
and `DatabaseStore.delete` — before any statement is built (an `.ok` value
is the statement that gets executed, so erroring is exactly "no statement
executed"); and whenever a delete does produce a statement, at least one
filter or additional filter was present. -/
theorem claim_C4 (fq : String) (filters : List (String × FVal))
    (afs : List AdditionalFilter) (dfilters : List (String × PyVal)) :
    (filters = [] → afs = [] →
      StatementExecutor._build_delete_statement fq filters afs =
        .error "No filters specified for delete op") ∧
    (∀ out, StatementExecutor._build_delete_statement fq filters afs = .ok out →
      filters ≠ [] ∨ afs ≠ []) ∧
    (dfilters = [] →
      DatabaseStore.delete fq dfilters =
        .error "Delete requires filters to prevent accidental full table deletion") ∧
    (∀ out, DatabaseStore.delete fq dfilters = .ok out → dfilters ≠ []) := by
  refine ⟨?_, ?_, ?_, ?_⟩
  · rintro rfl rfl; rfl
  · intro out h
    by_contra hc
    push_neg at hc
    rcases hc with ⟨h1, h2⟩
    subst h1; subst h2
    simp [StatementExecutor._build_delete_statement] at h
  · rintro rfl; rfl
  · intro out h hd
    subst hd
    simp [DatabaseStore.delete] at h

/-- Witness for C4 at the empty-filter delete. -/
theorem claim_C4_witness :
    StatementExecutor._build_delete_statement "test.t" [] [] =
      .error "No filters specified for delete op" ∧
    DatabaseStore.delete "test.t" [] =
      .error "Delete requires filters to prevent accidental full table deletion" :=
  ⟨(claim_C4 "test.t" [] [] []).1 rfl rfl, (claim_C4 "test.t" [] [] []).2.2.1 rfl⟩

/-! ### Pagination-field validation (claim C7) -/

/-- C7, counterexample: a paginate call on the unsupported field
`last_updated_ts` with no pagination token and a short result does *not*
raise a validation error — it returns the rows with an empty next token, so
the claimed "regardless of whether a pagination token was supplied and
regardless of how many rows the query would return" is false. -/
theorem claim_C7_counterexample :
    get_all_raw_paginate [] [] none 1 LAST_UPDATED_TS_FIELD false = .ok ([], none) ∧
    ∀ e, get_all_raw_paginate [] [] none 1 LAST_UPDATED_TS_FIELD false ≠ .error e := by
  refine ⟨rfl, fun e h => ?_⟩
  rw [show get_all_raw_paginate [] [] none 1 LAST_UPDATED_TS_FIELD false =
        .ok ([], none) from rfl] at h
  exact Except.noConfusion h

/-- C7, amended: whenever a (non-empty) pagination token is supplied, a
pagination field other than `created_ts` or `id` makes
`get_all_raw_paginate` raise the unsupported-pagination-field `ValueError`
immediately, regardless of the table contents and limit; without a token
the field is only validated when a full page forces token derivation. -/
theorem claim_C7 (table : List Row) (filters : List (Row → Bool))
    (tok : Option String) (limit : Nat) (field : String) (asc : Bool)
    (htok : tokPresent tok = true) (h1 : field ≠ CREATED_TS_FIELD)
    (h2 : field ≠ ID_FIELD) :
    get_all_raw_paginate table filters tok limit field asc =
      .error (.valueErr ("Unsupported pagination field: " ++ field)) := by
  unfold get_all_raw_paginate effectiveFilters
  simp [htok, h1, h2]

/-- Witness for C7 on field `last_updated_ts` with a token present. -/
theorem claim_C7_witness :
    get_all_raw_paginate [] [] (some "AAAA") 1 LAST_UPDATED_TS_FIELD false =
      .error (.valueErr ("Unsupported pagination field: " ++ LAST_UPDATED_TS_FIELD)) :=
  claim_C7 [] [] (some "AAAA") 1 LAST_UPDATED_TS_FIELD false (by decide)
    (by decide) (by decide)

/-! ### Lock-key derivation (claim C9) -/

/-- The hex fold from any accumulator stays below `(acc + 1) * 16 ^ length`. -/
theorem hexVal_foldl_lt (ds : List (Fin 16)) :
    ∀ acc : Nat, ds.foldl (fun a d => a * 16 + (d : Nat)) acc < (acc + 1) * 16 ^ ds.length := by
  induction ds with
  | nil => intro acc; simp
  | cons d ds ih =>
    intro acc
    simp only [List.foldl_cons, List.length_cons]
    have h1 := ih (acc * 16 + (d : Nat))
    have hd : (d : Nat) ≤ 15 := Nat.le_of_lt_succ d.isLt
    have h2 : (acc * 16 + (d : Nat) + 1) * 16 ^ ds.length ≤ (acc + 1) * 16 ^ (ds.length + 1) := by
      have : acc * 16 + (d : Nat) + 1 ≤ (acc + 1) * 16 := by omega
      calc (acc * 16 + (d : Nat) + 1) * 16 ^ ds.length
          ≤ ((acc + 1) * 16) * 16 ^ ds.length := Nat.mul_le_mul_right _ this
        _ = (acc + 1) * 16 ^ (ds.length + 1) := by ring
    exact lt_of_lt_of_le h1 h2

/-- A hex-digit string of length at most 16 denotes a value below `2 ^ 64`. -/
theorem hexVal_take16_lt (digest : List (Fin 16)) : hexVal (digest.take 16) < 2 ^ 64 := by
  have h1 : hexVal (digest.take 16) < 16 ^ (digest.take 16).length := by
    simpa [hexVal] using hexVal_foldl_lt (digest.take 16) 0
  have h2 : (digest.take 16).length ≤ 16 := by
    simp
  have h3 : (16 : Nat) ^ (digest.take 16).length ≤ 16 ^ 16 :=
    Nat.pow_le_pow_right (by omega) h2
  have h4 : (16 : Nat) ^ 16 = 2 ^ 64 := by norm_num
  omega

/-- C9: the lock key derived from a name's hash digest always lies in the
signed 64-bit range; with `u` the unsigned 64-bit value of the digest's
first 16 hex characters, the key is `u` when `u < 2^63` and `u - 2^64`
otherwise, hence congruent to `u` modulo `2^64`; and equal digests give
equal keys. -/
theorem claim_C9 (digest : List (Fin 16)) :
    (-(2 : Int) ^ 63 ≤ _string_to_lock_key digest ∧ _string_to_lock_key digest < 2 ^ 63) ∧
    (hexVal (digest.take 16) < 2 ^ 63 →
      _string_to_lock_key digest = (hexVal (digest.take 16) : Int)) ∧
    (2 ^ 63 ≤ hexVal (digest.take 16) →
      _string_to_lock_key digest = (hexVal (digest.take 16) : Int) - 2 ^ 64) ∧
    _string_to_lock_key digest % 2 ^ 64 = (hexVal (digest.take 16) : Int) % 2 ^ 64 ∧
    (∀ d2, digest = d2 → _string_to_lock_key digest = _string_to_lock_key d2) := by
  have hu : hexVal (digest.take 16) < 2 ^ 64 := hexVal_take16_lt digest
  unfold _string_to_lock_key
  dsimp only
  split_ifs with h
  · refine ⟨⟨?_, ?_⟩, ?_, ?_, ?_, ?_⟩ <;> try omega
    · intro d2 hd; subst hd; rw [if_pos h]
  · refine ⟨⟨?_, ?_⟩, ?_, ?_, ?_, ?_⟩ <;> try omega
    · intro d2 hd; subst hd; rw [if_neg h]

/-- Witness for C9 on a small digest (`u < 2^63`) and on the all-`f` digest
(`u = 2^64 - 1 ≥ 2^63`). -/
theorem claim_C9_witness :
    _string_to_lock_key [(8 : Fin 16)] = 8 ∧
    _string_to_lock_key (List.replicate 16 (15 : Fin 16)) =
      (18446744073709551615 : Int) - 18446744073709551616 := by
  constructor
  · have h := (claim_C9 [(8 : Fin 16)]).2.1 (by decide)
    rw [h]; decide
  · have h := (claim_C9 (List.replicate 16 (15 : Fin 16))).2.2.1 (by decide)
    rw [h]
    norm_num
    decide

/-! ### None-valued basic filters are omitted (claim C10) -/

/-- The shared WHERE loop of `DatabaseStore` ignores `None`-valued entries:
folding over the filters equals folding over the non-`None` ones. -/
theorem whereParts_foldl_filter (filters : List (String × PyVal)) :
    ∀ acc : List String × List PyVal,
    filters.foldl
      (fun acc kv =>
        if kv.2 ≠ PyVal.pyNone then (acc.1 ++ [kv.1 ++ " = %s"], acc.2 ++ [kv.2])
        else acc) acc =
    (filters.filter (fun kv => kv.2 ≠ PyVal.pyNone)).foldl
      (fun acc kv =>
        if kv.2 ≠ PyVal.pyNone then (acc.1 ++ [kv.1 ++ " = %s"], acc.2 ++ [kv.2])
        else acc) acc := by
  induction filters with
  | nil => intro acc; rfl
  | cons kv rest ih =>
    intro acc
    by_cases h : kv.2 = PyVal.pyNone
    · rw [List.foldl_cons, if_neg (by simp [h]), List.filter_cons,
        if_neg (by simp [h])]
      exact ih acc
    · rw [List.foldl_cons, if_pos h, List.filter_cons, if_pos (by simp [h]),
        List.foldl_cons, if_pos h]
      exact ih _

/-- `whereParts` only sees the non-`None` filters. -/
theorem whereParts_eq_filter (filters : List (String × PyVal)) :
    DatabaseStore.whereParts filters =
      DatabaseStore.whereParts (filters.filter (fun kv => kv.2 ≠ PyVal.pyNone)) := by
  unfold DatabaseStore.whereParts
  exact whereParts_foldl_filter filters ([], [])

/-- On a filters map whose values are all `None`, `whereParts` contributes
nothing. -/
theorem whereParts_all_none (filters : List (String × PyVal))
    (h : ∀ kv ∈ filters, kv.2 = PyVal.pyNone) :
    DatabaseStore.whereParts filters = ([], []) := by
  unfold DatabaseStore.whereParts
  induction filters with
  | nil => rfl
  | cons kv rest ih =>
    have hkv : kv.2 = PyVal.pyNone := h kv (by simp)
    simp only [List.foldl_cons, hkv]
    simpa using ih (fun x hx => h x (by simp [hx]))

/-- C10: a basic filter entry whose value is `None` is silently omitted from
the WHERE clause of `get_all`, `get_all_raw`, `count` and `delete` — each
builder produces exactly the query it produces for the map with the
`None`-valued entries removed — and a delete whose filters map is non-empty
but contains only `None` values raises the `ValueError` guard instead of
producing an unfiltered DELETE. -/
theorem claim_C10 (fq : String) (filters : List (String × PyVal))
    (afs : List DBAdditionalFilter) (sel : List String) (ob : String) (asc : Bool)
    (limit : Option Nat) :
    DatabaseStore.get_all fq filters afs ob asc limit =
      DatabaseStore.get_all fq (filters.filter (fun kv => kv.2 ≠ PyVal.pyNone)) afs
        ob asc limit ∧
    DatabaseStore.get_all_raw fq filters afs sel ob asc limit =
      DatabaseStore.get_all_raw fq (filters.filter (fun kv => kv.2 ≠ PyVal.pyNone)) afs
        sel ob asc limit ∧
    DatabaseStore.count fq filters =
      DatabaseStore.count fq (filters.filter (fun kv => kv.2 ≠ PyVal.pyNone)) ∧
    (filters ≠ [] → (∀ kv ∈ filters, kv.2 = PyVal.pyNone) →
      DatabaseStore.delete fq filters = .error "No valid filters provided for delete") := by
  refine ⟨?_, ?_, ?_, ?_⟩
  · unfold DatabaseStore.get_all
    conv_lhs => rw [whereParts_eq_filter]
  · unfold DatabaseStore.get_all_raw
    conv_lhs => rw [whereParts_eq_filter]
  · unfold DatabaseStore.count
    conv_lhs => rw [whereParts_eq_filter]
  · intro hne hall
    unfold DatabaseStore.delete
    rw [whereParts_all_none filters hall]
    simp [hne]

/-- Witness for C10: dropping a `None`-valued entry from `count`, and the
all-`None` delete guard. -/
theorem claim_C10_witness :
    DatabaseStore.count "s.t" [("a", PyVal.pyNone), ("b", PyVal.pyStr "x")] =
      DatabaseStore.count "s.t" [("b", PyVal.pyStr "x")] ∧
    DatabaseStore.delete "s.t" [("a", PyVal.pyNone)] =
      .error "No valid filters provided for delete" := by
  constructor
  · have h :=
      (claim_C10 "s.t" [("a", PyVal.pyNone), ("b", PyVal.pyStr "x")] [] [] "id" true
        none).2.2.1
    rw [h]
    rfl
  · exact
      (claim_C10 "s.t" [("a", PyVal.pyNone)] [] [] "id" true none).2.2.2
        (by decide) (by decide)

/-! ### Lock-manager connection lifecycle (claim C8) -/

/-- After `_get_connection_for_lock` the manager holds a connection. -/
theorem gcfl_isSome (k : Int) (st : LMState) :
    ((_get_connection_for_lock k st).2).connection.isSome = true := by
  unfold _get_connection_for_lock _get_connection
  cases st.connection <;> simp

/-- `_get_connection_for_lock` tracks exactly the new key. -/
theorem gcfl_keys (k : Int) (st : LMState) :
    ((_get_connection_for_lock k st).2).acquiredLockKeys =
      insert k st.acquiredLockKeys := by
  unfold _get_connection_for_lock _get_connection
  cases st.connection <;> rfl

/-- An existing connection is reused unchanged. -/
theorem gcfl_conn_some (k : Int) (st : LMState) (c : Nat)
    (h : st.connection = some c) :
    ((_get_connection_for_lock k st).2).connection = some c := by
  unfold _get_connection_for_lock _get_connection
  simp [h]

/-- With no connection held, a fresh one is opened. -/
theorem gcfl_conn_none (k : Int) (st : LMState) (h : st.connection = none) :
    ((_get_connection_for_lock k st).2).connection = some st.nextConnId := by
  unfold _get_connection_for_lock _get_connection
  simp [h]

/-- `_release_connection_for_lock` untracks the key. -/
theorem rcfl_keys (k : Int) (st : LMState) :
    (_release_connection_for_lock k st).acquiredLockKeys =
      st.acquiredLockKeys.erase k := by
  unfold _release_connection_for_lock
  dsimp only
  split_ifs <;> rfl

/-- After `_release_connection_for_lock` on a state that holds a connection,
the connection is held iff keys remain tracked. -/
theorem rcfl_inv (k : Int) (st : LMState) (h : st.connection.isSome = true) :
    lmInv (_release_connection_for_lock k st) := by
  unfold _release_connection_for_lock lmInv
  dsimp only
  split_ifs with hc
  · simp [hc.1]
  · rw [not_and] at hc
    rcases Decidable.em (st.acquiredLockKeys.erase k = ∅) with he | he
    · exact absurd h (hc he)
    · simp [h, he]

/-- If keys remain after the release, the connection is kept as-is. -/
theorem rcfl_conn_keep (k : Int) (st : LMState)
    (h : st.acquiredLockKeys.erase k ≠ ∅) :
    (_release_connection_for_lock k st).connection = st.connection := by
  unfold _release_connection_for_lock
  dsimp only
  split_ifs with hc
  · exact absurd hc.1 h
  · rfl

/-- If no key remains after the release, the connection is dropped. -/
theorem rcfl_conn_drop (k : Int) (st : LMState) (hs : st.connection.isSome = true)
    (h : st.acquiredLockKeys.erase k = ∅) :
    (_release_connection_for_lock k st).connection = none := by
  unfold _release_connection_for_lock
  dsimp only
  split_ifs with hc
  · rfl
  · exact absurd ⟨h, hs⟩ hc

/-- Unfolding of the granted non-blocking acquire. -/
theorem lmStep_anb_true (k : Int) (st : LMState) :
    lmStep (LMOp.acquireNonBlocking k true) st = (_get_connection_for_lock k st).2 := rfl

/-- Unfolding of the refused non-blocking acquire. -/
theorem lmStep_anb_false (k : Int) (st : LMState) :
    lmStep (LMOp.acquireNonBlocking k false) st =
      _release_connection_for_lock k (_get_connection_for_lock k st).2 := rfl

/-- Unfolding of release. -/
theorem lmStep_release (k : Int) (st : LMState) :
    lmStep (LMOp.release k) st =
      _release_connection_for_lock k (_get_connection_for_lock k st).2 := rfl

/-- Every lock-manager operation leaves the manager in an invariant state —
whatever the incoming state was. -/
theorem lmStep_inv (op : LMOp) (st : LMState) : lmInv (lmStep op st) := by
  cases op with
  | acquire k =>
    constructor
    · intro _
      show ((_get_connection_for_lock k st).2).acquiredLockKeys ≠ ∅
      rw [gcfl_keys]
      exact Finset.insert_ne_empty _ _
    · intro _
      exact gcfl_isSome k st
  | acquireNonBlocking k g =>
    cases g with
    | true =>
      rw [lmStep_anb_true]
      constructor
      · intro _
        rw [gcfl_keys]
        exact Finset.insert_ne_empty _ _
      · intro _
        exact gcfl_isSome k st
    | false =>
      rw [lmStep_anb_false]
      exact rcfl_inv _ _ (gcfl_isSome k st)
  | release k =>
    rw [lmStep_release]
    exact rcfl_inv _ _ (gcfl_isSome k st)

/-- The invariant holds in every reachable state of a fresh manager. -/
theorem lmRun_inv (ops : List LMOp) : lmInv (lmRun ops) := by
  induction ops using List.reverseRecOn with
  | nil =>
    constructor <;> intro h <;> simp [lmRun, LMState.init] at h
  | append_singleton ops op _ =>
    rw [show lmRun (ops ++ [op]) = lmStep op (lmRun ops) by
      simp [lmRun, List.foldl_append]]
    exact lmStep_inv op (lmRun ops)

/-- In an invariant state with tracked keys, a step that still leaves keys
tracked afterwards reuses the very same connection. -/
theorem lmStep_conn_reuse (op : LMOp) (st : LMState) (hinv : lmInv st)
    (h1 : st.acquiredLockKeys ≠ ∅)
    (h2 : (lmStep op st).acquiredLockKeys ≠ ∅) :
    (lmStep op st).connection = st.connection := by
  have hs : st.connection.isSome = true := hinv.2 h1
  obtain ⟨c, hc⟩ := Option.isSome_iff_exists.mp hs
  cases op with
  | acquire k =>
    show ((_get_connection_for_lock k st).2).connection = _
    rw [gcfl_conn_some k st c hc, hc]
  | acquireNonBlocking k g =>
    cases g with
    | true =>
      rw [lmStep_anb_true, gcfl_conn_some k st c hc, hc]
    | false =>
      rw [lmStep_anb_false] at h2 ⊢
      rw [rcfl_keys] at h2
      rw [rcfl_conn_keep _ _ h2, gcfl_conn_some k st c hc, hc]
  | release k =>
    rw [lmStep_release] at h2 ⊢
    rw [rcfl_keys] at h2
    rw [rcfl_conn_keep _ _ h2, gcfl_conn_some k st c hc, hc]

/-- A step that ends with no tracked keys ends with no connection. -/
theorem lmStep_conn_drop (op : LMOp) (st : LMState)
    (h : (lmStep op st).acquiredLockKeys = ∅) :
    (lmStep op st).connection = none := by
  cases op with
  | acquire k =>
    exfalso
    apply Finset.insert_ne_empty k st.acquiredLockKeys
    rw [← gcfl_keys k st]
    exact h
  | acquireNonBlocking k g =>
    cases g with
    | true =>
      exfalso
      apply Finset.insert_ne_empty k st.acquiredLockKeys
      rw [← gcfl_keys k st]
      rw [lmStep_anb_true] at h
      exact h
    | false =>
      rw [lmStep_anb_false] at h ⊢
      rw [rcfl_keys] at h
      exact rcfl_conn_drop _ _ (gcfl_isSome k st) h
  | release k =>
    rw [lmStep_release] at h ⊢
    rw [rcfl_keys] at h
    exact rcfl_conn_drop _ _ (gcfl_isSome k st) h

/-- A step that takes an invariant state from no tracked keys to some
tracked key opens a fresh pooled connection. -/
theorem lmStep_conn_fresh (op : LMOp) (st : LMState) (hinv : lmInv st)
    (h1 : st.acquiredLockKeys = ∅)
    (h2 : (lmStep op st).acquiredLockKeys ≠ ∅) :
    (lmStep op st).connection = some st.nextConnId := by
  have hnone : st.connection = none := by
    cases hco : st.connection with
    | none => rfl
    | some c =>
      exfalso
      exact (hinv.1 (by simp [hco])) h1
  cases op with
  | acquire k =>
    exact gcfl_conn_none k st hnone
  | acquireNonBlocking k g =>
    cases g with
    | true =>
      rw [lmStep_anb_true]
      exact gcfl_conn_none k st hnone
    | false =>
      exfalso
      apply h2
      rw [lmStep_anb_false, rcfl_keys, gcfl_keys, h1, Finset.erase_insert_eq_erase,
        Finset.erase_empty]
  | release k =>
    exfalso
    apply h2
    rw [lmStep_release, rcfl_keys, gcfl_keys, h1, Finset.erase_insert_eq_erase,
      Finset.erase_empty]

/-- C8: in every reachable state of a `PostgresLockManager`, the shared
connection is held iff the tracked held-lock set is non-empty; moreover,
for any next operation: the connection is reused unchanged whenever keys
are tracked before and after (never closed while a lock remains tracked), a
step that leaves no tracked key leaves no connection (including the close
after a failed non-blocking acquire), and a step that tracks the first key
opens the pool's next fresh connection. -/
theorem claim_C8 (ops : List LMOp) (op : LMOp) :
    lmInv (lmRun ops) ∧
    lmInv (lmStep op (lmRun ops)) ∧
    ((lmRun ops).acquiredLockKeys ≠ ∅ →
      (lmStep op (lmRun ops)).acquiredLockKeys ≠ ∅ →
      (lmStep op (lmRun ops)).connection = (lmRun ops).connection) ∧
    ((lmStep op (lmRun ops)).acquiredLockKeys = ∅ →
      (lmStep op (lmRun ops)).connection = none) ∧
    ((lmRun ops).acquiredLockKeys = ∅ →
      (lmStep op (lmRun ops)).acquiredLockKeys ≠ ∅ →
      (lmStep op (lmRun ops)).connection = some (lmRun ops).nextConnId) :=
  ⟨lmRun_inv ops, lmStep_inv op (lmRun ops),
   lmStep_conn_reuse op (lmRun ops) (lmRun_inv ops),
   lmStep_conn_drop op (lmRun ops),
   lmStep_conn_fresh op (lmRun ops) (lmRun_inv ops)⟩

/-- Witness for C8: after `acquire 5`, releasing lock 5 closes the
connection, while a failed non-blocking acquire of lock 7 keeps it. -/
theorem claim_C8_witness :
    (lmStep (LMOp.release 5) (lmRun [LMOp.acquire 5])).connection = none ∧
    (lmStep (LMOp.acquireNonBlocking 7 false) (lmRun [LMOp.acquire 5])).connection =
      (lmRun [LMOp.acquire 5]).connection := by
  constructor
  · exact (claim_C8 [LMOp.acquire 5] (LMOp.release 5)).2.2.2.1 (by decide)
  · exact (claim_C8 [LMOp.acquire 5] (LMOp.acquireNonBlocking 7 false)).2.2.1
      (by decide) (by decide)

/-! ### Conflicting update paths (claim C3) -/

@[simp]
theorem UpdateNode.path_mk {V : Type} (p : List String) (m : Option UMode)
    (v : Option V) (c : List (UpdateNode V)) : (UpdateNode.mk p m v c).path = p := rfl

@[simp]
theorem UpdateNode.update_mode_mk {V : Type} (p : List String) (m : Option UMode)
    (v : Option V) (c : List (UpdateNode V)) :
    (UpdateNode.mk p m v c).update_mode = m := rfl

@[simp]
theorem UpdateNode.value_mk {V : Type} (p : List String) (m : Option UMode)
    (v : Option V) (c : List (UpdateNode V)) : (UpdateNode.mk p m v c).value = v := rfl

@[simp]
theorem UpdateNode.children_mk {V : Type} (p : List String) (m : Option UMode)
    (v : Option V) (c : List (UpdateNode V)) : (UpdateNode.mk p m v c).children = c := rfl

@[simp]
theorem UpdateNode.lastSeg_mk_concat {V : Type} (p : List String) (s : String)
    (m : Option UMode) (v : Option V) (c : List (UpdateNode V)) :
    (UpdateNode.mk (p ++ [s]) m v c).lastSeg = s := by
  simp [UpdateNode.lastSeg, List.getLastD_concat]

theorem Contains_nil {V : Type} (t : UpdateNode V) (key : String) (m : UMode) (v : V) :
    Contains t [] key m v ↔
      ∃ c, findChild t.children key = some c ∧
        c.update_mode = some m ∧ c.value = some v := Iff.rfl

theorem Contains_cons {V : Type} (t : UpdateNode V) (s : String) (segs : List String)
    (key : String) (m : UMode) (v : V) :
    Contains t (s :: segs) key m v ↔
      ∃ c, findChild t.children s = some c ∧
        c.update_mode = none ∧ c.value = none ∧ Contains c segs key m v := Iff.rfl

/-- Unfolding of `insertSegs` on a single (leaf) segment. -/
theorem insertSegs_single {V : Type} [DecidableEq V] (n : UpdateNode V)
    (last : String) (v : V) :
    insertSegs n [last] v =
      (match findChild n.children (parseLeaf last).1 with
      | some child =>
        if child.update_mode ≠ some (parseLeaf last).2 ∨ child.value ≠ some v then
          .error "Conflicting update path"
        else .ok n
      | none =>
        .ok (.mk n.path n.update_mode n.value
          (n.children ++
            [.mk (n.path ++ [(parseLeaf last).1]) (some (parseLeaf last).2) (some v) []]))) :=
  rfl

/-- Unfolding of `insertSegs` on an internal segment followed by a
non-empty remainder. -/
theorem insertSegs_cons_of_ne {V : Type} [DecidableEq V] (n : UpdateNode V)
    (p : String) (tail : List String) (htail : tail ≠ []) (v : V) :
    insertSegs n (p :: tail) v =
      (match findChild n.children p with
      | some child =>
        if child.update_mode ≠ none ∨ child.value ≠ none then
          .error "Conflicting update path"
        else
          match insertSegs child tail v with
          | .error e => .error e
          | .ok child' =>
            .ok (.mk n.path n.update_mode n.value (replaceChild n.children p child'))
      | none =>
        match insertSegs (.mk (n.path ++ [p]) none none []) tail v with
        | .error e => .error e
        | .ok child' =>
          .ok (.mk n.path n.update_mode n.value (n.children ++ [child']))) := by
  cases tail with
  | nil => exact absurd rfl htail
  | cons s2 rest => rfl

/-- A successful insert never changes the node's own path, mode or value. -/
theorem insertSegs_meta {V : Type} [DecidableEq V] :
    ∀ (segs : List String) (n : UpdateNode V) (v : V) (n' : UpdateNode V),
    insertSegs n segs v = .ok n' →
    n'.path = n.path ∧ n'.update_mode = n.update_mode ∧ n'.value = n.value := by
  intro segs
  cases segs with
  | nil =>
    intro n v n' h
    rw [show insertSegs n [] v = .ok n from rfl, Except.ok.injEq] at h
    subst h
    exact ⟨rfl, rfl, rfl⟩
  | cons s1 tail =>
    cases tail with
    | nil =>
      intro n v n' h
      rw [insertSegs_single] at h
      split at h
      · split at h
        · exact absurd h (by simp)
        · rw [Except.ok.injEq] at h
          subst h
          exact ⟨rfl, rfl, rfl⟩
      · rw [Except.ok.injEq] at h
        subst h
        exact ⟨rfl, rfl, rfl⟩
    | cons s2 rest =>
      intro n v n' h
      rw [insertSegs_cons_of_ne n s1 (s2 :: rest) (by simp) v] at h
      split at h
      · split at h
        · exact absurd h (by simp)
        · split at h
          · exact absurd h (by simp)
          · rw [Except.ok.injEq] at h
            subst h
            exact ⟨rfl, rfl, rfl⟩
      · split at h
        · exact absurd h (by simp)
        · rw [Except.ok.injEq] at h
          subst h
          exact ⟨rfl, rfl, rfl⟩

/-- `findChild` looks left-first through an append. -/
theorem findChild_append_left {V : Type} (cs cs2 : List (UpdateNode V)) (s : String)
    (c : UpdateNode V) (h : findChild cs s = some c) :
    findChild (cs ++ cs2) s = some c := by
  unfold findChild at h ⊢
  rw [List.find?_append, h]
  rfl

/-- Appending a child with the sought segment behind a fruitless search
finds it. -/
theorem findChild_append_right {V : Type} (cs : List (UpdateNode V)) (s : String)
    (c : UpdateNode V) (h : findChild cs s = none) (hseg : c.lastSeg = s) :
    findChild (cs ++ [c]) s = some c := by
  unfold findChild at h ⊢
  rw [List.find?_append, h]
  simp [hseg]

/-- Replacing the first child carrying a segment by a node with the same
segment rewires exactly that lookup and no other. -/
theorem findChild_replaceChild {V : Type} :
    ∀ (cs : List (UpdateNode V)) (s t : String) (c c' : UpdateNode V),
    findChild cs s = some c → c'.lastSeg = c.lastSeg →
    findChild (replaceChild cs s c') t =
      if t = s then some c' else findChild cs t := by
  intro cs
  induction cs with
  | nil => intro s t c c' h _; exact absurd h (by simp [findChild])
  | cons c0 cs0 ih =>
    intro s t c c' h hseg
    by_cases h0 : c0.lastSeg = s
    · have hc : c = c0 := by
        unfold findChild at h
        rw [List.find?_cons_of_pos _ (by simp [h0])] at h
        exact (Option.some.inj h).symm
      subst hc
      have hcs : c'.lastSeg = s := hseg.trans h0
      unfold replaceChild
      rw [if_pos h0]
      by_cases ht : t = s
      · unfold findChild
        rw [List.find?_cons_of_pos _ (by simp [hcs, ht]), if_pos ht]
      · have hct : ¬ c'.lastSeg = t := by
          rw [hcs]; exact fun hst => ht hst.symm
        have hc0t : ¬ c.lastSeg = t := by
          rw [h0]; exact fun hst => ht hst.symm
        unfold findChild
        rw [if_neg ht, List.find?_cons_of_neg _ (by simp [hct]),
          List.find?_cons_of_neg _ (by simp [hc0t])]
    · have hrest : findChild cs0 s = some c := by
        unfold findChild at h ⊢
        rw [List.find?_cons_of_neg _ (by simp [h0])] at h
        exact h
      unfold replaceChild
      rw [if_neg h0]
      have hrec := ih s t c c' hrest hseg
      by_cases hc0 : c0.lastSeg = t
      · have hts : ¬ t = s := fun hts => h0 (hts ▸ hc0)
        unfold findChild
        rw [if_neg hts, List.find?_cons_of_pos _ (by simp [hc0]),
          List.find?_cons_of_pos _ (by simp [hc0])]
      · unfold findChild
        rw [List.find?_cons_of_neg _ (by simp [hc0]),
          List.find?_cons_of_neg _ (by simp [hc0])]
        unfold findChild at hrec
        rw [hrec]

/-- A successful insert of the path `pre ++ [last]` leaves the parsed leaf
(with its mode and value) reachable in the resulting tree. -/
theorem insertSegs_contains {V : Type} [DecidableEq V] :
    ∀ (pre : List String) (last : String) (n : UpdateNode V) (v : V) (n' : UpdateNode V),
    insertSegs n (pre ++ [last]) v = .ok n' →
    Contains n' pre (parseLeaf last).1 (parseLeaf last).2 v := by
  intro pre
  induction pre with
  | nil =>
    intro last n v n' h
    rw [List.nil_append, insertSegs_single] at h
    split at h
    · next child hf =>
      split at h
      · exact absurd h (by simp)
      · next hcond =>
        push_neg at hcond
        rw [Except.ok.injEq] at h
        subst h
        rw [Contains_nil]
        exact ⟨child, hf, hcond.1, hcond.2⟩
    · next hf =>
      rw [Except.ok.injEq] at h
      subst h
      rw [Contains_nil]
      refine ⟨UpdateNode.mk (n.path ++ [(parseLeaf last).1])
        (some (parseLeaf last).2) (some v) [], ?_, rfl, rfl⟩
      simp only [UpdateNode.children_mk]
      exact findChild_append_right _ _ _ hf (by simp)
  | cons p pre' ih =>
    intro last n v n' h
    rw [List.cons_append,
      insertSegs_cons_of_ne n p (pre' ++ [last]) (by simp) v] at h
    split at h
    · next child hf =>
      split at h
      · exact absurd h (by simp)
      · next hcond =>
        push_neg at hcond
        split at h
        · exact absurd h (by simp)
        · next child' hrec =>
          rw [Except.ok.injEq] at h
          subst h
          have hmeta := insertSegs_meta _ _ _ _ hrec
          have hseg : child'.lastSeg = child.lastSeg := by
            unfold UpdateNode.lastSeg
            rw [hmeta.1]
          rw [Contains_cons]
          refine ⟨child', ?_, ?_, ?_, ih last child v child' hrec⟩
          · simp only [UpdateNode.children_mk]
            rw [findChild_replaceChild n.children p p child child' hf hseg,
              if_pos rfl]
          · rw [hmeta.2.1, hcond.1]
          · rw [hmeta.2.2, hcond.2]
    · next hf =>
      split at h
      · exact absurd h (by simp)
      · next child' hrec =>
        rw [Except.ok.injEq] at h
        subst h
        have hmeta := insertSegs_meta _ _ _ _ hrec
        rw [Contains_cons]
        refine ⟨child', ?_, ?_, ?_, ih last _ v child' hrec⟩
        · simp only [UpdateNode.children_mk]
          refine findChild_append_right _ _ _ hf ?_
          unfold UpdateNode.lastSeg
          rw [hmeta.1]
          simp
        · rw [hmeta.2.1]; rfl
        · rw [hmeta.2.2]; rfl

/-- A successful insert of any path preserves every leaf already reachable
in the tree. -/
theorem insertSegs_preserves {V : Type} [DecidableEq V] :
    ∀ (segs : List String) (n : UpdateNode V) (v' : V) (n' : UpdateNode V)
      (pre : List String) (key : String) (m : UMode) (v : V),
    insertSegs n segs v' = .ok n' → Contains n pre key m v → Contains n' pre key m v := by
  intro segs
  induction segs with
  | nil =>
    intro n v' n' pre key m v h hc
    rw [show insertSegs n [] v' = .ok n from rfl, Except.ok.injEq] at h
    subst h
    exact hc
  | cons s1 tail ih =>
    intro n v' n' pre key m v h hc
    cases tail with
    | nil =>
      rw [insertSegs_single] at h
      split at h
      · split at h
        · exact absurd h (by simp)
        · rw [Except.ok.injEq] at h
          subst h
          exact hc
      · rw [Except.ok.injEq] at h
        subst h
        cases pre with
        | nil =>
          rw [Contains_nil] at hc ⊢
          obtain ⟨c, hcf, hcm, hcv⟩ := hc
          refine ⟨c, ?_, hcm, hcv⟩
          simp only [UpdateNode.children_mk]
          exact findChild_append_left _ _ _ _ hcf
        | cons p pre' =>
          rw [Contains_cons] at hc ⊢
          obtain ⟨c, hcf, hcm, hcv, hcc⟩ := hc
          refine ⟨c, ?_, hcm, hcv, hcc⟩
          simp only [UpdateNode.children_mk]
          exact findChild_append_left _ _ _ _ hcf
    | cons s2 rest =>
      rw [insertSegs_cons_of_ne n s1 (s2 :: rest) (by simp) v'] at h
      split at h
      · next child hf =>
        split at h
        · exact absurd h (by simp)
        · next hcond =>
          push_neg at hcond
          split at h
          · exact absurd h (by simp)
          · next child' hrec =>
            rw [Except.ok.injEq] at h
            subst h
            have hmeta := insertSegs_meta _ _ _ _ hrec
            have hseg : child'.lastSeg = child.lastSeg := by
              unfold UpdateNode.lastSeg
              rw [hmeta.1]
            cases pre with
            | nil =>
              rw [Contains_nil] at hc ⊢
              obtain ⟨c, hcf, hcm, hcv⟩ := hc
              by_cases hk : key = s1
              · exfalso
                rw [hk, hf, Option.some.injEq] at hcf
                rw [← hcf, hcond.1] at hcm
                exact Option.noConfusion hcm
              · refine ⟨c, ?_, hcm, hcv⟩
                simp only [UpdateNode.children_mk]
                rw [findChild_replaceChild n.children s1 key child child' hf hseg,
                  if_neg hk]
                exact hcf
            | cons p pre' =>
              rw [Contains_cons] at hc ⊢
              obtain ⟨c, hcf, hcm, hcv, hcc⟩ := hc
              by_cases hp : p = s1
              · have hceq : child = c := by
                  rw [hp, hf, Option.some.injEq] at hcf
                  exact hcf
                subst hceq
                refine ⟨child', ?_, ?_, ?_, ?_⟩
                · simp only [UpdateNode.children_mk]
                  rw [findChild_replaceChild n.children s1 p child child' hf hseg,
                    if_pos hp]
                · rw [hmeta.2.1]; exact hcm
                · rw [hmeta.2.2]; exact hcv
                · exact ih child v' child' pre' key m v hrec hcc
              · refine ⟨c, ?_, hcm, hcv, hcc⟩
                simp only [UpdateNode.children_mk]
                rw [findChild_replaceChild n.children s1 p child child' hf hseg,
                  if_neg hp]
                exact hcf
      · next hf =>
        split at h
        · exact absurd h (by simp)
        · next child' hrec =>
          rw [Except.ok.injEq] at h
          subst h
          cases pre with
          | nil =>
            rw [Contains_nil] at hc ⊢
            obtain ⟨c, hcf, hcm, hcv⟩ := hc
            refine ⟨c, ?_, hcm, hcv⟩
            simp only [UpdateNode.children_mk]
            exact findChild_append_left _ _ _ _ hcf
          | cons p pre' =>
            rw [Contains_cons] at hc ⊢
            obtain ⟨c, hcf, hcm, hcv, hcc⟩ := hc
            refine ⟨c, ?_, hcm, hcv, hcc⟩
            simp only [UpdateNode.children_mk]
            exact findChild_append_left _ _ _ _ hcf

/-- Reachable leaves are unique: the same path always carries one mode and
one value. -/
theorem contains_eq {V : Type} :
    ∀ (pre : List String) (t : UpdateNode V) (key : String) (m1 m2 : UMode) (v1 v2 : V),
    Contains t pre key m1 v1 → Contains t pre key m2 v2 → m1 = m2 ∧ v1 = v2 := by
  intro pre
  induction pre with
  | nil =>
    intro t key m1 m2 v1 v2 h1 h2
    rw [Contains_nil] at h1 h2
    obtain ⟨c1, hf1, hm1, hv1⟩ := h1
    obtain ⟨c2, hf2, hm2, hv2⟩ := h2
    rw [hf1, Option.some.injEq] at hf2
    subst hf2
    rw [hm1, Option.some.injEq] at hm2
    rw [hv1, Option.some.injEq] at hv2
    exact ⟨hm2, hv2⟩
  | cons s segs ih =>
    intro t key m1 m2 v1 v2 h1 h2
    rw [Contains_cons] at h1 h2
    obtain ⟨c1, hf1, _, _, hc1⟩ := h1
    obtain ⟨c2, hf2, _, _, hc2⟩ := h2
    rw [hf1, Option.some.injEq] at hf2
    subst hf2
    exact ih c1 key m1 m2 v1 v2 hc1 hc2

/-- A successful fold over all update entries preserves every reachable
leaf. -/
theorem jsonFold_preserves {V : Type} [DecidableEq V] :
    ∀ (entries : List (String × V)) (t0 t : UpdateNode V)
      (pre : List String) (key : String) (m : UMode) (v : V),
    entries.foldlM (fun tr kv => insertSegs tr (pySplit '.' kv.1) kv.2) t0 = .ok t →
    Contains t0 pre key m v → Contains t pre key m v := by
  intro entries
  induction entries with
  | nil =>
    intro t0 t pre key m v h hc
    rw [List.foldlM_nil] at h
    rw [show (pure t0 : Except String (UpdateNode V)) = .ok t0 from rfl,
      Except.ok.injEq] at h
    subst h
    exact hc
  | cons e rest ih =>
    intro t0 t pre key m v h hc
    rw [List.foldlM_cons] at h
    cases hins : insertSegs t0 (pySplit '.' e.1) e.2 with
    | error err =>
      rw [hins] at h
      rw [show ((Except.error err : Except String (UpdateNode V)) >>= fun init =>
        rest.foldlM (fun tr kv => insertSegs tr (pySplit '.' kv.1) kv.2) init) =
        (Except.error err : Except String (UpdateNode V)) from rfl] at h
      exact Except.noConfusion h
    | ok t1 =>
      rw [hins] at h
      rw [show ((Except.ok t1 : Except String (UpdateNode V)) >>= fun init =>
        rest.foldlM (fun tr kv => insertSegs tr (pySplit '.' kv.1) kv.2) init) =
        rest.foldlM (fun tr kv => insertSegs tr (pySplit '.' kv.1) kv.2) t1 from rfl] at h
      exact ih t1 t pre key m v h
        (insertSegs_preserves _ _ _ _ _ _ _ _ hins hc)

/-- After a successful fold over all update entries, every entry's parsed
leaf is reachable in the final tree. -/
theorem jsonFold_contains {V : Type} [DecidableEq V] :
    ∀ (entries : List (String × V)) (t0 t : UpdateNode V),
    entries.foldlM (fun tr kv => insertSegs tr (pySplit '.' kv.1) kv.2) t0 = .ok t →
    ∀ kv ∈ entries, ∀ (pre : List String) (last : String),
    pySplit '.' kv.1 = pre ++ [last] →
    Contains t pre (parseLeaf last).1 (parseLeaf last).2 kv.2 := by
  intro entries
  induction entries with
  | nil =>
    intro t0 t _ kv hkv
    exact absurd hkv (by simp)
  | cons e rest ih =>
    intro t0 t h kv hkv pre last hsplit
    rw [List.foldlM_cons] at h
    cases hins : insertSegs t0 (pySplit '.' e.1) e.2 with
    | error err =>
      rw [hins] at h
      rw [show ((Except.error err : Except String (UpdateNode V)) >>= fun init =>
        rest.foldlM (fun tr kv => insertSegs tr (pySplit '.' kv.1) kv.2) init) =
        (Except.error err : Except String (UpdateNode V)) from rfl] at h
      exact Except.noConfusion h
    | ok t1 =>
      rw [hins] at h
      rw [show ((Except.ok t1 : Except String (UpdateNode V)) >>= fun init =>
        rest.foldlM (fun tr kv => insertSegs tr (pySplit '.' kv.1) kv.2) init) =
        rest.foldlM (fun tr kv => insertSegs tr (pySplit '.' kv.1) kv.2) t1 from rfl] at h
      rcases List.mem_cons.mp hkv with rfl | hkv'
      · rw [hsplit] at hins
        exact jsonFold_preserves rest t1 t pre _ _ _ h
          (insertSegs_contains pre last t0 kv.2 t1 hins)
      · exact ih t1 t h kv hkv' pre last hsplit

/-- C3: if one updates map hands the update-clause builder two entries that
resolve to the same leaf JSON path within one column but with a different
update mode or a different value, `_build_update_clause_tree` raises the
conflicting-update-path `ValueError` during the build — i.e. before any
UPDATE statement exists to execute — rather than silently collapsing the
two entries. -/
theorem claim_C3 {V : Type} [DecidableEq V] (col : String)
    (updates : List (String × V)) (k1 k2 : String) (v1 v2 : V)
    (pre : List String) (last1 last2 : String)
    (h1 : (k1, v1) ∈ updates) (h2 : (k2, v2) ∈ updates) (hne : k1 ≠ k2)
    (hs1 : pySplit '.' k1 = pre ++ [last1])
    (hs2 : pySplit '.' k2 = pre ++ [last2])
    (hkey : (parseLeaf last1).1 = (parseLeaf last2).1)
    (hconf : (parseLeaf last1).2 ≠ (parseLeaf last2).2 ∨ v1 ≠ v2) :
    ∃ msg, _build_update_clause_tree col updates = .error msg := by
  have hshape : _build_update_clause_tree col updates = jsonTreeFold col updates := by
    match updates, h1 with
    | [e0], h1 =>
      have he1 : (k1, v1) = e0 := by simpa using h1
      have he2 : (k2, v2) = e0 := by simpa using h2
      exact absurd (by rw [← he1] at he2; exact congrArg Prod.fst he2.symm) hne
    | e0 :: e1 :: rest, _ => rfl
  rw [hshape]
  cases hfold : jsonTreeFold col updates with
  | error e => exact ⟨e, rfl⟩
  | ok t =>
    exfalso
    unfold jsonTreeFold at hfold
    have c1 := jsonFold_contains updates _ t hfold (k1, v1) h1 pre last1 hs1
    have c2 := jsonFold_contains updates _ t hfold (k2, v2) h2 pre last2 hs2
    rw [hkey] at c1
    have := contains_eq pre t (parseLeaf last2).1 _ _ _ _ c1 c2
    rcases hconf with hm | hv
    · exact hm this.1
    · exact hv this.2

/-- Witness for C3: the entries `"a.b"` (replace with 1) and `"a.b@append"`
(append 2) resolve to the same leaf path `a.b` with different modes, and
the build errors. -/
theorem claim_C3_witness :
    ∃ msg, _build_update_clause_tree "data" [("a.b", 1), ("a.b@append", 2)] =
      .error msg :=
  claim_C3 "data" [("a.b", 1), ("a.b@append", 2)] "a.b" "a.b@append" 1 2
    ["a"] "b" "b@append" (by decide) (by decide) (by decide)
    (by decide) (by decide) (by decide) (Or.inl (by decide))

/-! ### The filter compiler emits the spec's clauses (claim C6) -/

/-- Setting a key absent from a Python dict appends it. -/
theorem dictSet_fresh {α : Type} (d : List (String × α)) (k : String) (v : α)
    (h : ∀ e ∈ d, e.1 ≠ k) : dictSet d k v = d ++ [(k, v)] := by
  unfold dictSet
  rw [if_neg]
  simp only [List.any_eq_true, decide_eq_true_eq, not_exists]
  rintro e ⟨he, hek⟩
  exact h e he hek

/-- Folding fresh, pairwise-distinct keys into a Python dict appends them
in order. -/
theorem dict_foldl_append {α : Type} :
    ∀ (pairs d : List (String × α)),
    (∀ p ∈ pairs, ∀ e ∈ d, e.1 ≠ p.1) → (pairs.map Prod.fst).Nodup →
    pairs.foldl (fun acc kv => dictSet acc kv.1 kv.2) d = d ++ pairs := by
  intro pairs
  induction pairs with
  | nil => intro d _ _; simp
  | cons p rest ih =>
    intro d hfresh hnd
    rw [List.foldl_cons, dictSet_fresh d p.1 p.2 (fun e he => hfresh p (by simp) e he)]
    rw [ih (d ++ [(p.1, p.2)])]
    · simp
    · intro q hq e he
      rcases List.mem_append.mp he with he1 | he2
      · exact hfresh q (by simp [hq]) e he1
      · have hep : e = (p.1, p.2) := by simpa using he2
        subst hep
        intro hq1
        rw [List.map_cons, List.nodup_cons] at hnd
        exact hnd.1 (List.mem_map.mpr ⟨q, hq, hq1.symm⟩)
    · rw [List.map_cons, List.nodup_cons] at hnd
      exact hnd.2

namespace StatementExecutor

/-- One loop iteration of `_build_filter` appends exactly the spec's
fragment and the spec's named parameters, provided the new parameter names
are fresh and pairwise distinct. -/
theorem filterStep_spec (cs : List String) (ps : List (String × FLeaf))
    (kv : String × FVal)
    (hfresh : ∀ name ∈ (paramsSpec kv).map Prod.fst, ∀ e ∈ ps, e.1 ≠ name)
    (hnd : ((paramsSpec kv).map Prod.fst).Nodup) :
    filterStep (cs, ps) kv = (cs ++ [fragmentSpec kv], ps ++ paramsSpec kv) := by
  obtain ⟨k, v⟩ := kv
  cases v with
  | fNull => simp [filterStep, fragmentSpec, paramsSpec]
  | fList xs =>
    unfold filterStep fragmentSpec
    simp only
    rw [Prod.mk.injEq]
    constructor
    · rfl
    · have hmap :
          (xs.enum.map (fun p => (paramKeyOf k ++ "_" ++ toString p.1, p.2))).foldl
            (fun acc q => dictSet acc q.1 q.2) ps =
          xs.enum.foldl
            (fun d p => dictSet d (paramKeyOf k ++ "_" ++ toString p.1) p.2) ps :=
        List.foldl_map _ _ _ _
      rw [← hmap]
      exact dict_foldl_append _ ps
        (fun p hp e he => hfresh p.1 (List.mem_map.mpr ⟨p, hp, rfl⟩) e he)
        hnd
  | fVal x =>
    unfold filterStep fragmentSpec
    simp only
    rw [Prod.mk.injEq]
    constructor
    · rfl
    · exact dictSet_fresh ps (paramKeyOf k) (.fStr (strOfLeaf x))
        (fun e he => hfresh (paramKeyOf k) (by simp [paramsSpec]) e he)

/-- The basic-filter loop of `_build_filter` produces, in order, one spec
fragment and one spec parameter group per filter entry, given globally
collision-free parameter names. -/
theorem buildFilter_foldl_spec :
    ∀ (l : List (String × FVal)) (cs : List String) (ps : List (String × FLeaf)),
    (ps.map Prod.fst ++ l.flatMap (fun kv => (paramsSpec kv).map Prod.fst)).Nodup →
    l.foldl filterStep (cs, ps) =
      (cs ++ l.map fragmentSpec, ps ++ l.flatMap paramsSpec) := by
  intro l
  induction l with
  | nil => intro cs ps _; simp
  | cons kv rest ih =>
    intro cs ps hnd
    rw [List.flatMap_cons, ← List.append_assoc] at hnd
    have hnd2 := hnd
    rw [List.nodup_append] at hnd2
    have hndin := hnd2.1
    rw [List.nodup_append] at hndin
    rw [List.foldl_cons,
      filterStep_spec cs ps kv
        (fun name hname e he => fun heq =>
          hndin.2.2 (List.mem_map.mpr ⟨e, he, rfl⟩) (heq ▸ hname))
        hndin.2.1]
    rw [ih (cs ++ [fragmentSpec kv]) (ps ++ paramsSpec kv)
      (by rw [List.map_append]; exact hnd)]
    simp

/-- The additional-filter loop appends each raw statement and merges each
parameter dict, which under collision-free names is a plain append. -/
theorem afs_foldl_spec :
    ∀ (afs : List AdditionalFilter) (cs : List String) (ps : List (String × FLeaf)),
    (ps.map Prod.fst ++ afs.flatMap (fun af => af.params.map Prod.fst)).Nodup →
    afs.foldl (fun acc af => (acc.1 ++ [af.statement], dictUpdate acc.2 af.params))
        (cs, ps) =
      (cs ++ afs.map (fun af => af.statement), ps ++ afs.flatMap (fun af => af.params)) := by
  intro afs
  induction afs with
  | nil => intro cs ps _; simp
  | cons af rest ih =>
    intro cs ps hnd
    rw [List.flatMap_cons, ← List.append_assoc] at hnd
    have hnd2 := hnd
    rw [List.nodup_append] at hnd2
    have hndin := hnd2.1
    rw [List.nodup_append] at hndin
    rw [List.foldl_cons]
    have hdict : dictUpdate ps af.params = ps ++ af.params :=
      dict_foldl_append af.params ps
        (fun p hp e he => fun heq =>
          hndin.2.2 (List.mem_map.mpr ⟨e, he, rfl⟩)
            (heq ▸ List.mem_map.mpr ⟨p, hp, rfl⟩))
        hndin.2.1
    show List.foldl (fun acc af => (acc.1 ++ [af.statement], dictUpdate acc.2 af.params))
        (cs ++ [af.statement], dictUpdate ps af.params) rest = _
    rw [hdict]
    rw [ih (cs ++ [af.statement]) (ps ++ af.params)
      (by rw [List.map_append]; exact hnd)]
    simp

end StatementExecutor

/-- C6: for every basic-filters map and additional-filters list whose
generated parameter names do not collide (the spec's own invariant on
parameter namespaces), `_build_filter` emits per basic filter key exactly
the clause the spec describes — `IS NULL` for null, `IN` with one named
parameter per element, equality otherwise — joined by `AND` with the
additional-filter statements appended after all basic clauses, and binds
exactly the spec's parameters, whose names are the key with path
separators replaced by underscores (list elements suffixed with their
index). -/
theorem claim_C6 (filters : List (String × FVal)) (afs : List AdditionalFilter)
    (hnd : (filters.flatMap (fun kv => (StatementExecutor.paramsSpec kv).map Prod.fst) ++
        afs.flatMap (fun af => af.params.map Prod.fst)).Nodup) :
    StatementExecutor._build_filter filters afs =
      (StatementExecutor.whereOf
        (filters.map StatementExecutor.fragmentSpec ++ afs.map (fun af => af.statement)),
       filters.flatMap StatementExecutor.paramsSpec ++ afs.flatMap (fun af => af.params)) := by
  unfold StatementExecutor._build_filter
  rw [StatementExecutor.buildFilter_foldl_spec filters [] []
    (by simpa using (List.nodup_append.mp hnd).1)]
  simp only [List.nil_append]
  rw [StatementExecutor.afs_foldl_spec afs (filters.map StatementExecutor.fragmentSpec)
    (filters.flatMap StatementExecutor.paramsSpec) ?ha]
  · rfl
  case ha =>
    have : (filters.flatMap StatementExecutor.paramsSpec).map Prod.fst =
        filters.flatMap (fun kv => (StatementExecutor.paramsSpec kv).map Prod.fst) := by
      rw [List.map_flatMap]
    rw [this]
    exact hnd

/-- Witness for C6 on a null filter, a two-element list filter, a JSON-path
scalar filter and one additional filter. -/
theorem claim_C6_witness :
    StatementExecutor._build_filter
      [("a", FVal.fNull), ("b", FVal.fList [FLeaf.fInt 1, FLeaf.fInt 2]),
       ("m:c.d", FVal.fVal (FLeaf.fStr "x"))]
      [⟨"e = %(e)s", [("e", FLeaf.fInt 9)]⟩] =
      (StatementExecutor.whereOf
        (List.map StatementExecutor.fragmentSpec
          [("a", FVal.fNull), ("b", FVal.fList [FLeaf.fInt 1, FLeaf.fInt 2]),
           ("m:c.d", FVal.fVal (FLeaf.fStr "x"))] ++
         List.map (fun af => af.statement) [(⟨"e = %(e)s", [("e", FLeaf.fInt 9)]⟩ : AdditionalFilter)]),
       List.flatMap
          [("a", FVal.fNull), ("b", FVal.fList [FLeaf.fInt 1, FLeaf.fInt 2]),
           ("m:c.d", FVal.fVal (FLeaf.fStr "x"))] StatementExecutor.paramsSpec ++
        List.flatMap [(⟨"e = %(e)s", [("e", FLeaf.fInt 9)]⟩ : AdditionalFilter)]
          (fun af => af.params)) :=
  claim_C6 _ _ (by decide)

/-! ### Pagination-token codecs are invertible (claim C5) -/

/-- Every base-36 digit character parses back to its value. -/
theorem b36_digit_fin : ∀ d : Fin 36, b36val? (b36digitChar (d : Nat)) = some (d : Nat) := by
  decide

theorem b36_digit_nat (d : Nat) (h : d < 36) : b36val? (b36digitChar d) = some d :=
  b36_digit_fin ⟨d, h⟩

/-- The digit loop is accumulator-homomorphic: digits are emitted in front
of whatever is already in the accumulator. -/
theorem to_base36Go_append :
    ∀ (n fuel : Nat) (acc : List Char), n ≤ fuel →
    to_base36Go fuel n acc = to_base36Go fuel n [] ++ acc := by
  intro n
  induction n using Nat.strong_induction_on with
  | _ n ih =>
    match n with
    | 0 => intro fuel acc _; cases fuel <;> rfl
    | n + 1 =>
      intro fuel acc hle
      match fuel with
      | 0 => omega
      | fuel + 1 =>
        rw [show to_base36Go (fuel + 1) (n + 1) acc =
          to_base36Go fuel ((n + 1) / 36) (b36digitChar ((n + 1) % 36) :: acc) from rfl]
        rw [show to_base36Go (fuel + 1) (n + 1) [] =
          to_base36Go fuel ((n + 1) / 36) [b36digitChar ((n + 1) % 36)] from rfl]
        have hdiv : (n + 1) / 36 < n + 1 := Nat.div_lt_self (by omega) (by omega)
        have hfe : (n + 1) / 36 ≤ fuel := by omega
        rw [ih ((n + 1) / 36) hdiv fuel (b36digitChar ((n + 1) % 36) :: acc) hfe,
          ih ((n + 1) / 36) hdiv fuel [b36digitChar ((n + 1) % 36)] hfe]
        simp

/-- The digit loop's output does not depend on the fuel, as long as the
fuel covers the argument. -/
theorem to_base36Go_fuel :
    ∀ (n f1 f2 : Nat), n ≤ f1 → n ≤ f2 →
    to_base36Go f1 n [] = to_base36Go f2 n [] := by
  intro n
  induction n using Nat.strong_induction_on with
  | _ n ih =>
    match n with
    | 0 => intro f1 f2 _ _; cases f1 <;> cases f2 <;> rfl
    | n + 1 =>
      intro f1 f2 h1 h2
      match f1, f2 with
      | g1 + 1, g2 + 1 =>
        have hdiv : (n + 1) / 36 < n + 1 := Nat.div_lt_self (by omega) (by omega)
        have e1 : to_base36Go (g1 + 1) (n + 1) [] =
            to_base36Go g1 ((n + 1) / 36) [] ++ [b36digitChar ((n + 1) % 36)] := by
          rw [show to_base36Go (g1 + 1) (n + 1) [] =
            to_base36Go g1 ((n + 1) / 36) [b36digitChar ((n + 1) % 36)] from rfl]
          exact to_base36Go_append _ _ _ (by omega)
        have e2 : to_base36Go (g2 + 1) (n + 1) [] =
            to_base36Go g2 ((n + 1) / 36) [] ++ [b36digitChar ((n + 1) % 36)] := by
          rw [show to_base36Go (g2 + 1) (n + 1) [] =
            to_base36Go g2 ((n + 1) / 36) [b36digitChar ((n + 1) % 36)] from rfl]
          exact to_base36Go_append _ _ _ (by omega)
        rw [e1, e2, ih ((n + 1) / 36) hdiv g1 g2 (by omega) (by omega)]

/-- Parsing distributes over appending digit strings. -/
theorem valB36_append (l1 l2 : List Char) (a r : Nat) (h : valB36 l1 a = some r) :
    valB36 (l1 ++ l2) a = valB36 l2 r := by
  unfold valB36 at *
  rw [List.foldlM_append]
  rw [h]
  rfl

/-- The digit string of a positive `n` is non-empty. -/
theorem to_base36Go_ne_nil (n : Nat) (hn : 0 < n) : to_base36Go n n [] ≠ [] := by
  obtain ⟨m, rfl⟩ : ∃ m, n = m + 1 := ⟨n - 1, by omega⟩
  rw [show to_base36Go (m + 1) (m + 1) [] =
    to_base36Go m ((m + 1) / 36) [b36digitChar ((m + 1) % 36)] from rfl]
  rw [to_base36Go_append ((m + 1) / 36) m _
    (by have := Nat.div_lt_self (show 0 < m + 1 by omega) (show 1 < 36 by omega); omega)]
  simp

/-- `to_base36` never produces the empty string. -/
theorem to_base36_ne_empty (n : Nat) : to_base36 n ≠ "" := by
  unfold to_base36
  split_ifs with h
  · decide
  · intro hc
    exact to_base36Go_ne_nil n (by omega) (congrArg String.data hc)

/-- Value of the emitted digit string: parsing it from accumulator `a`
yields `a` shifted past the digits, plus `n`. -/
theorem to_base36Go_val :
    ∀ n : Nat, 0 < n → ∀ a : Nat,
    valB36 (to_base36Go n n []) a =
      some (a * 36 ^ (to_base36Go n n []).length + n) := by
  intro n
  induction n using Nat.strong_induction_on with
  | _ n ih =>
    intro hn a
    obtain ⟨m, rfl⟩ : ∃ m, n = m + 1 := ⟨n - 1, by omega⟩
    have hdiv : (m + 1) / 36 < m + 1 := Nat.div_lt_self (by omega) (by omega)
    have hexp : to_base36Go (m + 1) (m + 1) [] =
        to_base36Go ((m + 1) / 36) ((m + 1) / 36) [] ++ [b36digitChar ((m + 1) % 36)] := by
      rw [show to_base36Go (m + 1) (m + 1) [] =
        to_base36Go m ((m + 1) / 36) [b36digitChar ((m + 1) % 36)] from rfl]
      rw [to_base36Go_append _ _ _ (by omega),
        to_base36Go_fuel ((m + 1) / 36) m ((m + 1) / 36) (by omega) (by omega)]
    rw [hexp]
    have hmod : (m + 1) % 36 < 36 := Nat.mod_lt _ (by omega)
    rcases Nat.eq_zero_or_pos ((m + 1) / 36) with hq | hq
    · rw [hq]
      rw [show to_base36Go 0 0 [] = [] from rfl]
      rw [List.nil_append]
      unfold valB36
      rw [List.foldlM_cons, b36_digit_nat _ hmod]
      have hsmall : m + 1 < 36 := by omega
      have : (m + 1) % 36 = m + 1 := Nat.mod_eq_of_lt hsmall
      simp [this, List.foldlM_nil]
    · have hrec := ih ((m + 1) / 36) hdiv hq a
      rw [valB36_append _ _ _ _ hrec]
      unfold valB36
      rw [List.foldlM_cons, b36_digit_nat _ hmod]
      simp only [Option.map_eq_map, List.foldlM_nil]
      have harith :
          (a * 36 ^ (to_base36Go ((m + 1) / 36) ((m + 1) / 36) []).length + (m + 1) / 36) * 36 +
            (m + 1) % 36 =
          a * 36 ^ ((to_base36Go ((m + 1) / 36) ((m + 1) / 36) []).length + 1) + (m + 1) := by
        have hdm := Nat.div_add_mod (m + 1) 36
        rw [pow_succ]
        ring_nf
        omega
      rw [List.length_append]
      simp only [List.length_singleton]
      rw [← harith]
      rfl

/-- Roundtrip of the base-36 token codec. -/
theorem b36_roundtrip (n : Nat) : from_base36 (to_base36 n) = some n := by
  rcases Nat.eq_zero_or_pos n with rfl | hn
  · decide
  · unfold to_base36
    rw [if_neg (by omega)]
    unfold from_base36
    rw [show (String.mk (to_base36Go n n [])).data = to_base36Go n n [] from rfl]
    rw [if_neg (by simpa using to_base36Go_ne_nil n hn)]
    have := to_base36Go_val n hn 0
    simpa using this

/-- Every six-bit group's character indexes back to the group. -/
theorem b64_digit_fin : ∀ s : Fin 64, b64idx? (b64char (s : Nat)) = some (s : Nat) := by
  decide

theorem b64_digit_nat (s : Nat) (h : s < 64) : b64idx? (b64char s) = some s :=
  b64_digit_fin ⟨s, h⟩

/-- No six-bit group maps to the padding character. -/
theorem b64char_ne_pad_fin : ∀ s : Fin 64, b64char (s : Nat) ≠ '=' := by
  decide

theorem b64char_ne_pad (s : Nat) (h : s < 64) : b64char s ≠ '=' :=
  b64char_ne_pad_fin ⟨s, h⟩

/-- Roundtrip of the base-64 chunk loops. -/
theorem b64Go_roundtrip : ∀ bs : List (Fin 256), b64decodeGo (b64encodeGo bs) = some bs
  | [] => rfl
  | [b1] => by
    have hb1 : (b1 : Nat) < 256 := b1.isLt
    rw [show b64encodeGo [b1] =
      [b64char ((b1 : Nat) / 4), b64char ((b1 : Nat) % 4 * 16), '=', '='] from rfl]
    unfold b64decodeGo
    rw [b64_digit_nat _ (by omega), b64_digit_nat _ (by omega)]
    simp only [Option.bind_eq_bind, Option.some_bind]
    rw [if_pos (⟨trivial, trivial, trivial⟩ : True ∧ True ∧ True)]
    refine congrArg some ?_
    refine List.cons_eq_cons.mpr ⟨?_, rfl⟩
    apply Fin.ext
    show ((b1 : Nat) / 4 * 4 + (b1 : Nat) % 4 * 16 / 16) % 256 = (b1 : Nat)
    omega
  | [b1, b2] => by
    have hb1 : (b1 : Nat) < 256 := b1.isLt
    have hb2 : (b2 : Nat) < 256 := b2.isLt
    rw [show b64encodeGo [b1, b2] =
      [b64char ((b1 : Nat) / 4), b64char ((b1 : Nat) % 4 * 16 + (b2 : Nat) / 16),
       b64char ((b2 : Nat) % 16 * 4), '='] from rfl]
    unfold b64decodeGo
    rw [b64_digit_nat _ (by omega), b64_digit_nat _ (by omega)]
    simp only [Option.bind_eq_bind, Option.some_bind]
    rw [if_neg (by
      rintro ⟨hc3, -⟩
      exact b64char_ne_pad _ (by omega) hc3)]
    rw [b64_digit_nat _ (by omega)]
    simp only [Option.some_bind]
    rw [if_pos (⟨trivial, trivial⟩ : True ∧ True)]
    refine congrArg some ?_
    refine List.cons_eq_cons.mpr ⟨?_, List.cons_eq_cons.mpr ⟨?_, rfl⟩⟩
    · apply Fin.ext
      show ((b1 : Nat) / 4 * 4 + ((b1 : Nat) % 4 * 16 + (b2 : Nat) / 16) / 16) % 256 =
        (b1 : Nat)
      omega
    · apply Fin.ext
      show (((b1 : Nat) % 4 * 16 + (b2 : Nat) / 16) % 16 * 16 +
        (b2 : Nat) % 16 * 4 / 4) % 256 = (b2 : Nat)
      omega
  | b1 :: b2 :: b3 :: rest => by
    have hb1 : (b1 : Nat) < 256 := b1.isLt
    have hb2 : (b2 : Nat) < 256 := b2.isLt
    have hb3 : (b3 : Nat) < 256 := b3.isLt
    rw [show b64encodeGo (b1 :: b2 :: b3 :: rest) =
      b64char ((b1 : Nat) / 4) :: b64char ((b1 : Nat) % 4 * 16 + (b2 : Nat) / 16) ::
      b64char ((b2 : Nat) % 16 * 4 + (b3 : Nat) / 64) :: b64char ((b3 : Nat) % 64) ::
      b64encodeGo rest from rfl]
    unfold b64decodeGo
    rw [b64_digit_nat _ (by omega), b64_digit_nat _ (by omega)]
    simp only [Option.bind_eq_bind, Option.some_bind]
    rw [if_neg (by
      rintro ⟨hc3, -⟩
      exact b64char_ne_pad _ (by omega) hc3)]
    rw [b64_digit_nat _ (by omega)]
    simp only [Option.some_bind]
    rw [if_neg (by
      rintro ⟨hc4, -⟩
      exact b64char_ne_pad _ (by omega) hc4)]
    rw [b64_digit_nat _ (by omega)]
    simp only [Option.some_bind]
    rw [b64Go_roundtrip rest]
    simp only [Option.some_bind]
    refine congrArg some ?_
    refine List.cons_eq_cons.mpr ⟨?_, List.cons_eq_cons.mpr ⟨?_,
      List.cons_eq_cons.mpr ⟨?_, rfl⟩⟩⟩
    · apply Fin.ext
      show ((b1 : Nat) / 4 * 4 + ((b1 : Nat) % 4 * 16 + (b2 : Nat) / 16) / 16) % 256 =
        (b1 : Nat)
      omega
    · apply Fin.ext
      show (((b1 : Nat) % 4 * 16 + (b2 : Nat) / 16) % 16 * 16 +
        ((b2 : Nat) % 16 * 4 + (b3 : Nat) / 64) / 4) % 256 = (b2 : Nat)
      omega
    · apply Fin.ext
      show (((b2 : Nat) % 16 * 4 + (b3 : Nat) / 64) % 4 * 64 + (b3 : Nat) % 64) % 256 =
        (b3 : Nat)
      omega

/-- Roundtrip of the base-64 token codec. -/
theorem b64_roundtrip (bs : List (Fin 256)) : b64decode (b64encode bs) = some bs :=
  b64Go_roundtrip bs

/-- C5: the pagination-token encodings are invertible on the values the
executor produces — decoding the base-36 encoding of any non-negative
integer yields it back, decoding the base-64 encoding of any identifier
byte string yields it back; hence the strict bound the paginate path
decodes from a `created_ts` token (`millis * 1000` microseconds) equals
the encoded row's timestamp floored to whole milliseconds, and exactly
equals it when the timestamp is at millisecond precision. -/
theorem claim_C5 :
    (∀ n : Nat, from_base36 (to_base36 n) = some n) ∧
    (∀ bs : List (Fin 256), b64decode (b64encode bs) = some bs) ∧
    (∀ k : Nat, (from_base36 (to_base36 (k / 1000))).map (fun m => m * 1000) =
      some (k / 1000 * 1000)) ∧
    (∀ k : Nat, k % 1000 = 0 →
      (from_base36 (to_base36 (k / 1000))).map (fun m => m * 1000) = some k) := by
  refine ⟨b36_roundtrip, b64_roundtrip, ?_, ?_⟩
  · intro k
    rw [b36_roundtrip (k / 1000)]
    rfl
  · intro k hk
    rw [b36_roundtrip (k / 1000)]
    have : k / 1000 * 1000 = k := Nat.div_mul_cancel (Nat.dvd_of_mod_eq_zero hk)
    simp [this]

/-- Witness for C5 at concrete token values. -/
theorem claim_C5_witness :
    from_base36 (to_base36 123456) = some 123456 ∧
    b64decode (b64encode [104, 105]) = some [104, 105] ∧
    (from_base36 (to_base36 (5000 / 1000))).map (fun m => m * 1000) = some 5000 :=
  ⟨claim_C5.1 123456, claim_C5.2.1 [104, 105], claim_C5.2.2.2 5000 (by decide)⟩

/-! ### Pagination completeness (claim C2) -/

/-- Membership of the last element. -/
theorem getLast?_mem_self {α : Type} {l : List α} {x : α}
    (h : l.getLast? = some x) : x ∈ l := by
  obtain ⟨hne, hx⟩ := List.mem_getLast?_eq_getLast (Option.mem_def.mpr h)
  subst hx
  exact List.getLast_mem hne

/-- Two sorted permutations carrying pairwise-distinct keys are equal, for
the descending key order the paginate path sorts by. -/
theorem sorted_key_eq {α K : Type} [LinearOrder K] (key : α → K) :
    ∀ (l1 l2 : List α), l1.Perm l2 →
    l1.Pairwise (fun a b => key b ≤ key a) →
    l2.Pairwise (fun a b => key b ≤ key a) →
    (l1.map key).Nodup → l1 = l2 := by
  intro l1
  induction l1 with
  | nil =>
    intro l2 hperm _ _ _
    exact (hperm.symm.eq_nil).symm ▸ rfl
  | cons a t1 ih =>
    intro l2 hperm hp1 hp2 hnd
    have ha2 : a ∈ l2 := hperm.mem_iff.mp (by simp)
    cases l2 with
    | nil => exact absurd hperm.eq_nil (by simp)
    | cons b t2 =>
      have hab : a = b := by
        by_contra hne
        have hbl1 : b ∈ a :: t1 := hperm.symm.mem_iff.mp (by simp)
        have hb1 : b ∈ t1 := by
          rcases List.mem_cons.mp hbl1 with h | h
          · exact absurd h.symm hne
          · exact h
        have ha2' : a ∈ t2 := by
          rcases List.mem_cons.mp ha2 with h | h
          · exact absurd h hne
          · exact h
        have h1 : key b ≤ key a := (List.pairwise_cons.mp hp1).1 b hb1
        have h2 : key a ≤ key b := (List.pairwise_cons.mp hp2).1 a ha2'
        rw [List.map_cons, List.nodup_cons] at hnd
        exact hnd.1 (List.mem_map.mpr ⟨b, hb1, le_antisymm h1 h2⟩)
      subst hab
      rw [ih t2 hperm.cons_inv (List.pairwise_cons.mp hp1).2
        (List.pairwise_cons.mp hp2).2
        (by rw [List.map_cons, List.nodup_cons] at hnd; exact hnd.2)]

/-- In a descending-sorted list, the last element's key bounds every
element's key from below. -/
theorem pairwise_getLast_le {α K : Type} [LinearOrder K] (key : α → K) :
    ∀ (l : List α) (x : α), l.getLast? = some x →
    l.Pairwise (fun a b => key b ≤ key a) → ∀ r ∈ l, key x ≤ key r := by
  intro l
  induction l with
  | nil => intro x hx; exact absurd hx (by simp)
  | cons a t ih =>
    intro x hx hp r hr
    cases t with
    | nil =>
      have hxa : x = a := by simpa using hx.symm
      have hra : r = a := by simpa using hr
      rw [hxa, hra]
    | cons b t2 =>
      rw [List.getLast?_cons_cons] at hx
      rcases List.mem_cons.mp hr with rfl | hr2
      · exact (List.pairwise_cons.mp hp).1 x (getLast?_mem_self hx)
      · exact ih x hx (List.pairwise_cons.mp hp).2 r hr2

/-- Filtering a descending-sorted duplicate-free list with the strict bound
taken from position `|pre|` yields exactly the suffix after that position. -/
theorem filter_lt_getLast {α K : Type} [LinearOrder K] (key : α → K)
    (pre suf : List α) (x : α) (hx : pre.getLast? = some x)
    (hp : (pre ++ suf).Pairwise (fun a b => key b ≤ key a))
    (hnd : ((pre ++ suf).map key).Nodup) :
    (pre ++ suf).filter (fun r => decide (key r < key x)) = suf := by
  rcases List.pairwise_append.mp hp with ⟨hp1, _, hcross⟩
  rw [List.filter_append]
  have hxpre : x ∈ pre := getLast?_mem_self hx
  have hpre0 : List.filter (fun r => decide (key r < key x)) pre = [] := by
    rw [List.filter_eq_nil_iff]
    intro a ha
    simp only [decide_eq_true_eq, not_lt]
    exact pairwise_getLast_le key pre x hx hp1 a ha
  have hsuf0 : List.filter (fun r => decide (key r < key x)) suf = suf := by
    rw [List.filter_eq_self]
    intro a ha
    simp only [decide_eq_true_eq]
    have hle : key a ≤ key x := hcross x hxpre a ha
    refine lt_of_le_of_ne hle ?_
    intro he
    rw [List.map_append, List.nodup_append] at hnd
    exact hnd.2.2 (List.mem_map.mpr ⟨x, hxpre, rfl⟩)
      (List.mem_map.mpr ⟨a, ha, he⟩)
  rw [hpre0, hsuf0, List.nil_append]

/-- One-step unfolding of the `get_all_raw` window loop. -/
theorem get_all_rawGo_succ (sorted : List Row) (limit f offset batch : Nat)
    (out : List Row) :
    get_all_rawGo sorted limit (f + 1) out offset batch =
      (if (fetchWindow sorted offset batch).isEmpty then out
       else if (fetchWindow sorted offset batch).length < batch then
         out ++ fetchWindow sorted offset batch
       else get_all_rawGo sorted limit f (out ++ fetchWindow sorted offset batch)
         (offset + batch)
         (min batch (limit - (out ++ fetchWindow sorted offset batch).length))) := rfl

/-- The window loop of `get_all_raw` accumulates exactly the first `limit`
rows of the sorted matches. -/
theorem get_all_rawGo_spec (sorted : List Row) (limit : Nat) :
    ∀ (fuel offset batch : Nat) (out : List Row),
    out = sorted.take offset →
    out.length + batch ≤ limit →
    (batch = 0 → limit ≤ out.length) →
    sorted.length - offset < fuel →
    get_all_rawGo sorted limit fuel out offset batch = sorted.take limit := by
  intro fuel
  induction fuel with
  | zero => intro offset batch out _ _ _ h; omega
  | succ f ih =>
    intro offset batch out hout hlb hb0 hfuel
    have hwin : (fetchWindow sorted offset batch).length =
        min batch (sorted.length - offset) := by
      unfold fetchWindow
      rw [List.length_take, List.length_drop]
    have houtlen : out.length = min offset sorted.length := by
      rw [hout, List.length_take]
    rw [get_all_rawGo_succ]
    by_cases hempty : (fetchWindow sorted offset batch).isEmpty = true
    · rw [if_pos hempty]
      have hlen0 : (fetchWindow sorted offset batch).length = 0 := by
        rw [List.isEmpty_iff.mp hempty]
        rfl
      rw [hwin] at hlen0
      rcases Nat.eq_zero_or_pos batch with hb | hb
      · have hl : limit ≤ out.length := hb0 hb
        rw [hout]
        exact List.take_eq_take.mpr (by omega)
      · have hle : sorted.length ≤ offset := by omega
        rw [hout, List.take_of_length_le hle,
          List.take_of_length_le (by omega)]
    · rw [if_neg hempty]
      have hne : fetchWindow sorted offset batch ≠ [] := by
        intro hc
        exact hempty (List.isEmpty_iff.mpr hc)
      have hpos : 0 < (fetchWindow sorted offset batch).length :=
        List.length_pos.mpr hne
      have hofflt : offset < sorted.length := by
        rw [hwin] at hpos
        omega
      have houtoff : out.length = offset := by omega
      by_cases hshort : (fetchWindow sorted offset batch).length < batch
      · rw [if_pos hshort]
        have hrest : sorted.length - offset < batch := by
          rw [hwin] at hshort
          omega
        have hfw : fetchWindow sorted offset batch = sorted.drop offset := by
          unfold fetchWindow
          exact List.take_of_length_le (by rw [List.length_drop]; omega)
        rw [hout, hfw, List.take_append_drop,
          List.take_of_length_le (by rw [hwin] at hshort; omega)]
      · rw [if_neg hshort]
        have hfull : (fetchWindow sorted offset batch).length = batch := by
          rw [hwin] at hshort ⊢
          omega
        have hbpos : 0 < batch := by omega
        have hinside : offset + batch ≤ sorted.length := by
          rw [hwin] at hfull
          omega
        have hout' : out ++ fetchWindow sorted offset batch =
            sorted.take (offset + batch) := by
          rw [hout]
          unfold fetchWindow
          rw [List.take_add]
        rw [hout']
        refine ih (offset + batch) _ _ rfl ?_ ?_ ?_
        · have : (sorted.take (offset + batch)).length = offset + batch := by
            rw [List.length_take]
            omega
          rw [this]
          have h1 : offset + batch ≤ limit := by omega
          have h2 : min batch (limit - (sorted.take (offset + batch)).length) ≤
              limit - (offset + batch) := by
            rw [this]
            exact min_le_right _ _
          omega
        · intro hz
          have : (sorted.take (offset + batch)).length = offset + batch := by
            rw [List.length_take]
            omega
          rw [this] at hz ⊢
          omega
        · omega

/-- `get_all_raw` on a known column returns the first `limit` sorted
matching rows. -/
theorem get_all_raw_spec (table : List Row) (filters : List (Row → Bool))
    (ob : String) (asc : Bool) (limit : Nat) (hk : knownColumn ob = true) :
    get_all_raw table filters ob asc limit =
      .ok ((sortRows ob asc (table.filter (fun r => filters.all (fun f => f r)))).take
        limit) := by
  have hred : get_all_raw table filters ob asc limit =
      Except.ok (get_all_rawGo
        (sortRows ob asc (table.filter (fun r => filters.all (fun f => f r))))
        limit
        ((sortRows ob asc (table.filter (fun r => filters.all (fun f => f r)))).length + 1)
        [] 0 (min 10000 limit)) := by
    unfold get_all_raw
    rw [hk]
    rfl
  rw [hred]
  refine congrArg Except.ok ?_
  refine get_all_rawGo_spec _ _ _ 0 _ [] rfl ?_ ?_ ?_
  · simp only [List.length_nil]
    omega
  · intro h
    simp only [List.length_nil]
    omega
  · simp only [Nat.sub_zero]
    exact Nat.lt_succ_self _

/-- Descending `created_ts` page order in terms of `≤` on the timestamp. -/
theorem rowOrder_created_desc (a b : Row) :
    rowOrder CREATED_TS_FIELD false a b ↔ b.created_ts ≤ a.created_ts := by
  simp [rowOrder, pageLe, fieldLtb]

/-- Descending `id` page order in terms of `≤` on the identifier. -/
theorem rowOrder_id_desc (a b : Row) :
    rowOrder ID_FIELD false a b ↔ b.id ≤ a.id := by
  simp [rowOrder, pageLe, fieldLtb, ID_FIELD, CREATED_TS_FIELD]

/-- `sortRows` output is pairwise descending in the sort key whenever the
page order coincides with `≤` on that key. -/
theorem sortRows_pairwise_key {K : Type} [LinearOrder K] (key : Row → K)
    (f : String) (asc : Bool)
    (hiff : ∀ a b, rowOrder f asc a b ↔ key b ≤ key a) (l : List Row) :
    (sortRows f asc l).Pairwise (fun a b => key b ≤ key a) := by
  haveI : IsTotal Row (rowOrder f asc) :=
    ⟨fun a b => by rw [hiff, hiff]; exact le_total (key b) (key a)⟩
  haveI : IsTrans Row (rowOrder f asc) :=
    ⟨fun a b c hab hbc =>
      (hiff a c).mpr (le_trans ((hiff b c).mp hbc) ((hiff a b).mp hab))⟩
  exact List.Pairwise.imp (fun hab => (hiff _ _).mp hab)
    (List.sorted_insertionSort (rowOrder f asc) l)

/-- `sortRows` permutes its input. -/
theorem sortRows_perm (f : String) (asc : Bool) (l : List Row) :
    (sortRows f asc l).Perm l :=
  List.perm_insertionSort (rowOrder f asc) l

/-- With pairwise-distinct sort keys, sorting after filtering equals
filtering the sorted list. -/
theorem sortRows_filter_eq {K : Type} [LinearOrder K] (key : Row → K)
    (f : String) (asc : Bool)
    (hiff : ∀ a b, rowOrder f asc a b ↔ key b ≤ key a)
    (table : List Row) (q : Row → Bool)
    (hnd : ((sortRows f asc table).map key).Nodup) :
    sortRows f asc (table.filter q) = (sortRows f asc table).filter q := by
  have hperm : (sortRows f asc (table.filter q)).Perm
      ((sortRows f asc table).filter q) :=
    (sortRows_perm f asc (table.filter q)).trans
      (((sortRows_perm f asc table).filter q).symm)
  refine sorted_key_eq key _ _ hperm ?_ ?_ ?_
  · exact sortRows_pairwise_key key f asc hiff _
  · exact (sortRows_pairwise_key key f asc hiff table).sublist
      (List.filter_sublist _)
  · exact (hperm.map key).nodup_iff.mpr
      (hnd.sublist ((List.filter_sublist _).map key))

/-- A non-empty byte string encodes to a non-empty character list. -/
theorem b64encodeGo_ne_nil : ∀ (bs : List (Fin 256)), bs ≠ [] →
    b64encodeGo bs ≠ []
  | [], h => absurd rfl h
  | [_], _ => by simp [b64encodeGo]
  | [_, _], _ => by simp [b64encodeGo]
  | _ :: _ :: _ :: _, _ => by simp [b64encodeGo]

/-- `b64encode` of a non-empty byte string is a non-empty token. -/
theorem b64encode_ne_empty (bs : List (Fin 256)) (h : bs ≠ []) :
    b64encode bs ≠ "" := by
  intro hc
  exact b64encodeGo_ne_nil bs h (congrArg String.data hc)

/-- `get_all_raw_paginate` reduced past a successful filter build and row
fetch: all that remains is the token derivation. -/
theorem get_all_raw_paginate_ok (table : List Row) (filters : List (Row → Bool))
    (tok : Option String) (limit : Nat) (field : String) (asc : Bool)
    (efs : List (Row → Bool)) (raw : List Row)
    (heff : effectiveFilters filters tok field = .ok efs)
    (hraw : get_all_raw table efs field asc limit = .ok raw) :
    get_all_raw_paginate table filters tok limit field asc =
      (if raw.length < limit then .ok (raw, none)
       else if field = CREATED_TS_FIELD then
         match raw.getLast? with
         | none => .error (.dbErr "IndexError: list index out of range")
         | some last => .ok (raw, some (to_base36 (last.created_ts / 1000)))
       else if field = ID_FIELD then
         match raw.getLast? with
         | none => .error (.dbErr "IndexError: list index out of range")
         | some last =>
           if last.id = [] then
             .error (.assertionErr "BUG: id not found in the last entry")
           else .ok (raw, some (b64encode last.id))
       else .error (.valueErr ("Unsupported pagination field: " ++ field))) := by
  have h1 : get_all_raw_paginate table filters tok limit field asc =
      (match get_all_raw table efs field asc limit with
       | .error e => .error e
       | .ok raw =>
         if raw.length < limit then .ok (raw, none)
         else if field = CREATED_TS_FIELD then
           match raw.getLast? with
           | none => .error (.dbErr "IndexError: list index out of range")
           | some last => .ok (raw, some (to_base36 (last.created_ts / 1000)))
         else if field = ID_FIELD then
           match raw.getLast? with
           | none => .error (.dbErr "IndexError: list index out of range")
           | some last =>
             if last.id = [] then
               .error (.assertionErr "BUG: id not found in the last entry")
             else .ok (raw, some (b64encode last.id))
         else .error (.valueErr ("Unsupported pagination field: " ++ field))) := by
    conv_lhs => unfold get_all_raw_paginate; rw [heff]
  rw [h1, hraw]

/-- One pagination round finishing the scan: a page with no next token. -/
theorem paginateAllGo_none (table : List Row) (filters : List (Row → Bool))
    (limit : Nat) (field : String) (asc : Bool) (f : Nat) (tok : Option String)
    (page : List Row)
    (hp : get_all_raw_paginate table filters tok limit field asc =
      .ok (page, none)) :
    paginateAllGo table filters limit field asc (f + 1) tok = .ok page := by
  unfold paginateAllGo
  rw [hp]

/-- One pagination round continuing the scan: a page with a next token,
followed by a successful recursive scan. -/
theorem paginateAllGo_full (table : List Row) (filters : List (Row → Bool))
    (limit : Nat) (field : String) (asc : Bool) (f : Nat) (tok : Option String)
    (page rest : List Row) (tk : String)
    (hp : get_all_raw_paginate table filters tok limit field asc =
      .ok (page, some tk))
    (hr : paginateAllGo table filters limit field asc f (some tk) = .ok rest) :
    paginateAllGo table filters limit field asc (f + 1) tok =
      .ok (page ++ rest) := by
  have h1 : paginateAllGo table filters limit field asc (f + 1) tok =
      match paginateAllGo table filters limit field asc f (some tk) with
      | .error e => .error e
      | .ok rest => .ok (page ++ rest) := by
    conv_lhs => unfold paginateAllGo; rw [hp]
  rw [h1, hr]

/-- No incoming token: the filter list is passed through unchanged. -/
theorem effectiveFilters_none (filters : List (Row → Bool)) (field : String) :
    effectiveFilters filters none field = .ok filters := rfl

/-- A `created_ts` token decodes back to its milliseconds and contributes
the strict microsecond bound. -/
theorem effectiveFilters_created (filters : List (Row → Bool)) (m : Nat) :
    effectiveFilters filters (some (to_base36 m)) CREATED_TS_FIELD =
      .ok (filters ++ [fun r : Row => decide (r.created_ts < m * 1000)]) := by
  have htokp : tokPresent (some (to_base36 m)) = true := by
    simp [tokPresent]
    exact to_base36_ne_empty m
  unfold effectiveFilters
  rw [htokp, if_pos rfl]
  simp only [Option.getD_some]
  rw [if_pos trivial, b36_roundtrip]

/-- An `id` token decodes back to its bytes and contributes the strict
identifier bound. -/
theorem effectiveFilters_id (filters : List (Row → Bool)) (bs : List (Fin 256))
    (h : bs ≠ []) :
    effectiveFilters filters (some (b64encode bs)) ID_FIELD =
      .ok (filters ++ [fun r : Row => decide (r.id < bs)]) := by
  have htokp : tokPresent (some (b64encode bs)) = true := by
    simp [tokPresent]
    exact b64encode_ne_empty bs h
  unfold effectiveFilters
  rw [htokp, if_pos rfl]
  simp only [Option.getD_some]
  rw [if_pos trivial, b64_roundtrip,
    if_neg (show ¬ ID_FIELD = CREATED_TS_FIELD by decide)]

/-- The repeated-pagination driver on `created_ts`, descending: from any
split of the sorted table into an already-emitted prefix and a remaining
suffix, with the token encoding the last emitted row, the scan returns
exactly the remaining suffix. -/
theorem paginateAllGo_created (table : List Row) (limit : Nat) (hlim : 0 < limit)
    (hms : ∀ r ∈ table, r.created_ts % 1000 = 0)
    (hnd : (table.map Row.created_ts).Nodup) :
    ∀ (fuel : Nat) (pre suf : List Row) (tok : Option String),
    sortRows CREATED_TS_FIELD false table = pre ++ suf →
    suf.length < fuel →
    ((tok = none ∧ pre = []) ∨
      (∃ x, pre.getLast? = some x ∧ x ∈ table ∧
        tok = some (to_base36 (x.created_ts / 1000)))) →
    paginateAllGo table [] limit CREATED_TS_FIELD false fuel tok = .ok suf := by
  have hpairS : (sortRows CREATED_TS_FIELD false table).Pairwise
      (fun a b => Row.created_ts b ≤ Row.created_ts a) :=
    sortRows_pairwise_key Row.created_ts _ _ rowOrder_created_desc table
  have hndS : ((sortRows CREATED_TS_FIELD false table).map Row.created_ts).Nodup :=
    ((sortRows_perm _ _ table).map Row.created_ts).nodup_iff.mpr hnd
  intro fuel
  induction fuel with
  | zero => intro pre suf tok _ h _; omega
  | succ f ih =>
    intro pre suf tok hsplit hflen hinv
    have hraw : ∃ efs, effectiveFilters [] tok CREATED_TS_FIELD = .ok efs ∧
        get_all_raw table efs CREATED_TS_FIELD false limit =
          .ok (suf.take limit) := by
      rcases hinv with ⟨htok, hpre⟩ | ⟨x, hx, hxmem, htok⟩
      · subst htok
        subst hpre
        refine ⟨[], effectiveFilters_none [] CREATED_TS_FIELD, ?_⟩
        rw [get_all_raw_spec table [] CREATED_TS_FIELD false limit rfl]
        have hfl : table.filter
            (fun r => List.all ([] : List (Row → Bool)) (fun f => f r)) = table :=
          List.filter_eq_self.mpr (fun a _ => rfl)
        rw [hfl, hsplit, List.nil_append]
      · subst htok
        have hx1000 : x.created_ts / 1000 * 1000 = x.created_ts :=
          Nat.div_mul_cancel (Nat.dvd_of_mod_eq_zero (hms x hxmem))
        refine ⟨_, effectiveFilters_created [] (x.created_ts / 1000), ?_⟩
        rw [get_all_raw_spec table _ CREATED_TS_FIELD false limit rfl]
        have hfl : table.filter
            (fun r => List.all
              ([] ++ [fun r : Row => decide (r.created_ts < x.created_ts / 1000 * 1000)])
              (fun f => f r)) =
            table.filter (fun r => decide (r.created_ts < x.created_ts)) := by
          refine List.filter_congr ?_
          intro a _
          simp only [List.nil_append, List.all_cons, List.all_nil, Bool.and_true]
          rw [hx1000]
        rw [hfl,
          sortRows_filter_eq Row.created_ts _ _ rowOrder_created_desc table _ hndS,
          hsplit,
          filter_lt_getLast Row.created_ts pre suf x hx (hsplit ▸ hpairS)
            (hsplit ▸ hndS)]
    obtain ⟨efs, heff, hraweq⟩ := hraw
    have hpag := get_all_raw_paginate_ok table [] tok limit CREATED_TS_FIELD false
      efs (suf.take limit) heff hraweq
    by_cases hshort : suf.length < limit
    · have htake : suf.take limit = suf := List.take_of_length_le (le_of_lt hshort)
      rw [htake, if_pos hshort] at hpag
      exact paginateAllGo_none table [] limit CREATED_TS_FIELD false f tok suf hpag
    · have hlelim : limit ≤ suf.length := le_of_not_lt hshort
      have htlen : (suf.take limit).length = limit := by
        rw [List.length_take]
        omega
      have hne : suf.take limit ≠ [] := by
        intro hc
        rw [hc] at htlen
        simp only [List.length_nil] at htlen
        omega
      have hylast : (suf.take limit).getLast? =
          some ((suf.take limit).getLast hne) :=
        List.getLast?_eq_getLast _ hne
      have hymem_table : (suf.take limit).getLast hne ∈ table := by
        have h1 : (suf.take limit).getLast hne ∈ suf :=
          (List.take_sublist limit suf).subset (List.getLast_mem hne)
        have h2 : (suf.take limit).getLast hne ∈ sortRows CREATED_TS_FIELD false table := by
          rw [hsplit]
          exact (List.sublist_append_right pre suf).subset h1
        exact (sortRows_perm _ _ table).mem_iff.mp h2
      have hpag2 : get_all_raw_paginate table [] tok limit CREATED_TS_FIELD false =
          .ok (suf.take limit,
            some (to_base36 (((suf.take limit).getLast hne).created_ts / 1000))) := by
        rw [hpag, htlen, if_neg (lt_irrefl limit), if_pos rfl, hylast]
      have hrec := ih (pre ++ suf.take limit) (suf.drop limit)
        (some (to_base36 (((suf.take limit).getLast hne).created_ts / 1000)))
        (by rw [List.append_assoc, List.take_append_drop]; exact hsplit)
        (by rw [List.length_drop]; omega)
        (Or.inr ⟨(suf.take limit).getLast hne,
          by rw [List.getLast?_append_of_ne_nil pre hne, hylast],
          hymem_table, rfl⟩)
      have hstep := paginateAllGo_full table [] limit CREATED_TS_FIELD false f tok
        (suf.take limit) (suf.drop limit)
        (to_base36 (((suf.take limit).getLast hne).created_ts / 1000)) hpag2 hrec
      rw [List.take_append_drop] at hstep
      exact hstep

/-- The repeated-pagination driver on `id`, descending: from any split of
the sorted table into an already-emitted prefix and a remaining suffix,
with the token encoding the last emitted row's identifier, the scan
returns exactly the remaining suffix. -/
theorem paginateAllGo_id (table : List Row) (limit : Nat) (hlim : 0 < limit)
    (hids : ∀ r ∈ table, r.id ≠ [])
    (hnd : (table.map Row.id).Nodup) :
    ∀ (fuel : Nat) (pre suf : List Row) (tok : Option String),
    sortRows ID_FIELD false table = pre ++ suf →
    suf.length < fuel →
    ((tok = none ∧ pre = []) ∨
      (∃ x, pre.getLast? = some x ∧ x ∈ table ∧ tok = some (b64encode x.id))) →
    paginateAllGo table [] limit ID_FIELD false fuel tok = .ok suf := by
  have hpairS : (sortRows ID_FIELD false table).Pairwise
      (fun a b => Row.id b ≤ Row.id a) :=
    sortRows_pairwise_key Row.id _ _ rowOrder_id_desc table
  have hndS : ((sortRows ID_FIELD false table).map Row.id).Nodup :=
    ((sortRows_perm _ _ table).map Row.id).nodup_iff.mpr hnd
  intro fuel
  induction fuel with
  | zero => intro pre suf tok _ h _; omega
  | succ f ih =>
    intro pre suf tok hsplit hflen hinv
    have hraw : ∃ efs, effectiveFilters [] tok ID_FIELD = .ok efs ∧
        get_all_raw table efs ID_FIELD false limit = .ok (suf.take limit) := by
      rcases hinv with ⟨htok, hpre⟩ | ⟨x, hx, hxmem, htok⟩
      · subst htok
        subst hpre
        refine ⟨[], effectiveFilters_none [] ID_FIELD, ?_⟩
        rw [get_all_raw_spec table [] ID_FIELD false limit rfl]
        have hfl : table.filter
            (fun r => List.all ([] : List (Row → Bool)) (fun f => f r)) = table :=
          List.filter_eq_self.mpr (fun a _ => rfl)
        rw [hfl, hsplit, List.nil_append]
      · subst htok
        refine ⟨_, effectiveFilters_id [] x.id (hids x hxmem), ?_⟩
        rw [get_all_raw_spec table _ ID_FIELD false limit rfl]
        have hfl : table.filter
            (fun r => List.all ([] ++ [fun r : Row => decide (r.id < x.id)])
              (fun f => f r)) =
            table.filter (fun r => decide (r.id < x.id)) := by
          refine List.filter_congr ?_
          intro a _
          simp only [List.nil_append, List.all_cons, List.all_nil, Bool.and_true]
        rw [hfl, sortRows_filter_eq Row.id _ _ rowOrder_id_desc table _ hndS,
          hsplit,
          filter_lt_getLast Row.id pre suf x hx (hsplit ▸ hpairS) (hsplit ▸ hndS)]
    obtain ⟨efs, heff, hraweq⟩ := hraw
    have hpag := get_all_raw_paginate_ok table [] tok limit ID_FIELD false
      efs (suf.take limit) heff hraweq
    by_cases hshort : suf.length < limit
    · have htake : suf.take limit = suf := List.take_of_length_le (le_of_lt hshort)
      rw [htake, if_pos hshort] at hpag
      exact paginateAllGo_none table [] limit ID_FIELD false f tok suf hpag
    · have hlelim : limit ≤ suf.length := le_of_not_lt hshort
      have htlen : (suf.take limit).length = limit := by
        rw [List.length_take]
        omega
      have hne : suf.take limit ≠ [] := by
        intro hc
        rw [hc] at htlen
        simp only [List.length_nil] at htlen
        omega
      have hylast : (suf.take limit).getLast? =
          some ((suf.take limit).getLast hne) :=
        List.getLast?_eq_getLast _ hne
      have hymem_table : (suf.take limit).getLast hne ∈ table := by
        have h1 : (suf.take limit).getLast hne ∈ suf :=
          (List.take_sublist limit suf).subset (List.getLast_mem hne)
        have h2 : (suf.take limit).getLast hne ∈ sortRows ID_FIELD false table := by
          rw [hsplit]
          exact (List.sublist_append_right pre suf).subset h1
        exact (sortRows_perm _ _ table).mem_iff.mp h2
      have hpag2 : get_all_raw_paginate table [] tok limit ID_FIELD false =
          .ok (suf.take limit,
            some (b64encode ((suf.take limit).getLast hne).id)) := by
        rw [hpag, htlen, if_neg (lt_irrefl limit), if_neg (by decide), if_pos rfl,
          hylast]
        show (if ((suf.take limit).getLast hne).id = [] then
            (Except.error (DbErr.assertionErr "BUG: id not found in the last entry") :
              Except DbErr (List Row × Option String))
          else Except.ok (suf.take limit,
            some (b64encode ((suf.take limit).getLast hne).id))) = _
        rw [if_neg (hids _ hymem_table)]
      have hrec := ih (pre ++ suf.take limit) (suf.drop limit)
        (some (b64encode ((suf.take limit).getLast hne).id))
        (by rw [List.append_assoc, List.take_append_drop]; exact hsplit)
        (by rw [List.length_drop]; omega)
        (Or.inr ⟨(suf.take limit).getLast hne,
          by rw [List.getLast?_append_of_ne_nil pre hne, hylast],
          hymem_table, rfl⟩)
      have hstep := paginateAllGo_full table [] limit ID_FIELD false f tok
        (suf.take limit) (suf.drop limit)
        (b64encode ((suf.take limit).getLast hne).id) hpag2 hrec
      rw [List.take_append_drop] at hstep
      exact hstep

/-- C2 (amended): with no concurrent writes, repeatedly calling
`get_all_raw_paginate` on pagination field `created_ts` or `id` in the
descending order the tokens are built for, feeding each returned token into
the next call until the token comes back empty, yields exactly the N rows
of the table — no row twice, no row omitted — provided the page size is
positive and the rows' sort keys are pairwise distinct (for `created_ts`
additionally whole milliseconds, since the token only carries millisecond
precision; for `id` non-empty, since a falsy id trips the executor's
assertion).  The original claim, with no direction or distinctness proviso,
is refuted by `claim_C2_counterexample`: the bound filter is always
`field < bound`, so an ascending scan drops every row after the first
page. -/
theorem claim_C2 (table : List Row) (limit : Nat) (hlim : 0 < limit)
    (hms : ∀ r ∈ table, r.created_ts % 1000 = 0)
    (hndts : (table.map Row.created_ts).Nodup)
    (hids : ∀ r ∈ table, r.id ≠ [])
    (hndid : (table.map Row.id).Nodup) :
    (paginateAll table [] limit CREATED_TS_FIELD false =
        .ok (sortRows CREATED_TS_FIELD false table) ∧
      (sortRows CREATED_TS_FIELD false table).Perm table) ∧
    (paginateAll table [] limit ID_FIELD false =
        .ok (sortRows ID_FIELD false table) ∧
      (sortRows ID_FIELD false table).Perm table) := by
  refine ⟨⟨?_, sortRows_perm _ _ table⟩, ?_, sortRows_perm _ _ table⟩
  · unfold paginateAll
    refine paginateAllGo_created table limit hlim hms hndts (table.length + 1)
      [] (sortRows CREATED_TS_FIELD false table) none rfl ?_ (Or.inl ⟨rfl, rfl⟩)
    have := (sortRows_perm CREATED_TS_FIELD false table).length_eq
    omega
  · unfold paginateAll
    refine paginateAllGo_id table limit hlim hids hndid (table.length + 1)
      [] (sortRows ID_FIELD false table) none rfl ?_ (Or.inl ⟨rfl, rfl⟩)
    have := (sortRows_perm ID_FIELD false table).length_eq
    omega

/-- Counterexample to C2 as stated: paginating *ascending* by `id` over a
two-row table with page size 1 returns only the first row — the derived
token is still used as a strict `<` upper bound, so the second page is
empty and the scan stops with one of the two rows never returned. -/
theorem claim_C2_counterexample :
    paginateAll [⟨[97], 1000, 1000⟩, ⟨[98], 2000, 2000⟩] [] 1 ID_FIELD true =
      .ok [⟨[97], 1000, 1000⟩] ∧
    ¬ List.Perm [(⟨[97], 1000, 1000⟩ : Row)]
      [⟨[97], 1000, 1000⟩, ⟨[98], 2000, 2000⟩] := by
  constructor
  · rfl
  · intro h
    have := h.length_eq
    simp at this

/-- C2 witness: a concrete two-row table, page size 1, scanned completely
in both `created_ts` and `id` descending pagination. -/
theorem claim_C2_witness :
    (paginateAll [⟨[98], 2000000, 0⟩, ⟨[97], 1000000, 0⟩] [] 1
        CREATED_TS_FIELD false =
      .ok (sortRows CREATED_TS_FIELD false
        [⟨[98], 2000000, 0⟩, ⟨[97], 1000000, 0⟩]) ∧
      (sortRows CREATED_TS_FIELD false
        [⟨[98], 2000000, 0⟩, ⟨[97], 1000000, 0⟩]).Perm
        [⟨[98], 2000000, 0⟩, ⟨[97], 1000000, 0⟩]) ∧
    (paginateAll [⟨[98], 2000000, 0⟩, ⟨[97], 1000000, 0⟩] [] 1 ID_FIELD false =
      .ok (sortRows ID_FIELD false
        [⟨[98], 2000000, 0⟩, ⟨[97], 1000000, 0⟩]) ∧
      (sortRows ID_FIELD false
        [⟨[98], 2000000, 0⟩, ⟨[97], 1000000, 0⟩]).Perm
        [⟨[98], 2000000, 0⟩, ⟨[97], 1000000, 0⟩]) :=
  claim_C2 [⟨[98], 2000000, 0⟩, ⟨[97], 1000000, 0⟩] 1 (by decide) (by decide)
    (by decide) (by decide) (by decide)
